import Mathlib

set_option autoImplicit false

/-!
Verification of the agent loop core: the decision parser (`tryParseToolCall`
in `llm_providers.js`), the observation sanitizer (`sanitizeObservation` in
`agent.js`) and the run loop (`Agent.run` in `agent.js`), shallowly embedded
in Lean.  JS strings are Lean `String`s, JSON values are an inductive tree,
and the cyclic values fed to the sanitizer are modelled by a finite heap of
addressed objects.  History is stored newest-first (a cons models a push).
-/

/-! ### JS string primitives -/

/-- Whitespace class used by JS `\s`, `String.prototype.trim` and friends. -/
def isJsWs (c : Char) : Bool :=
  c = ' ' || c = '\t' || c = '\n' || c = '\r' || c = '\x0b' || c = '\x0c' ||
  c = ' ' || c = '﻿' || c = ' ' || c = ' '

/-- Drop leading JS whitespace from a character list. -/
def dropWs (cs : List Char) : List Char := cs.dropWhile isJsWs

/-- JS `String.prototype.trim`. -/
def jsTrim (s : String) : String :=
  ⟨((s.data.dropWhile isJsWs).reverse.dropWhile isJsWs).reverse⟩

/-- Global single-character replacement, modelling `s.replace(/c/g, r)`. -/
def jsReplaceChar (c : Char) (r : String) (s : String) : String :=
  ⟨s.data.flatMap (fun d => if d = c then r.data else [d])⟩

/-- Prefix test on character lists. -/
def pfxAt : List Char → List Char → Bool
  | [], _ => true
  | _ :: _, [] => false
  | p :: ps, c :: cs => p = c && pfxAt ps cs

/-- Substring containment test (`pat` occurs contiguously in `cs`). -/
def containsL (pat : List Char) : List Char → Bool
  | [] => pfxAt pat []
  | c :: cs => pfxAt pat (c :: cs) || containsL pat cs

/-- Substring containment on strings. -/
def containsSub (s pat : String) : Bool := containsL pat.data s.data

/-! ### JSON values

JSON numbers are kept as their source lexeme; no claim in scope inspects a
numeric value beyond truthiness, and a lexeme determines its number. -/

inductive Json where
  | null : Json
  | bool (b : Bool) : Json
  | num (lexeme : String) : Json
  | str (s : String) : Json
  | arr (elems : List Json) : Json
  | obj (fields : List (String × Json)) : Json

instance : Inhabited Json := ⟨Json.null⟩

mutual

/-- Structural equality test on JSON values. -/
def Json.beq : Json → Json → Bool
  | .null, .null => true
  | .bool a, .bool b => a = b
  | .num a, .num b => a = b
  | .str a, .str b => a = b
  | .arr a, .arr b => Json.beqL a b
  | .obj a, .obj b => Json.beqF a b
  | _, _ => false

/-- Equality of JSON value lists. -/
def Json.beqL : List Json → List Json → Bool
  | [], [] => true
  | a :: as, b :: bs => Json.beq a b && Json.beqL as bs
  | _, _ => false

/-- Equality of JSON field lists. -/
def Json.beqF : List (String × Json) → List (String × Json) → Bool
  | [], [] => true
  | (k, a) :: as, (k', b) :: bs => k = k' && Json.beq a b && Json.beqF as bs
  | _, _ => false

end

/-- Truthiness of a JSON value seen as a JS value: `null`, `false`, `""` and
`0` are falsy; every object or array is truthy.  A parsed number lexeme
denotes zero exactly when its mantissa has no nonzero digit. -/
def Json.truthy : Json → Bool
  | .null => false
  | .bool b => b
  | .str s => s ≠ ""
  | .num lex =>
      ((lex.data.takeWhile (fun c => c ≠ 'e' && c ≠ 'E')).any
        (fun c => c.isDigit && c ≠ '0'))
  | .arr _ => true
  | .obj _ => true

/-- Optional-chaining property access `v?.k`: a field lookup on objects,
`undefined` (here `none`) on everything else, including `null`. -/
def Json.getOpt (v : Json) (k : String) : Option Json :=
  match v with
  | .obj fs => (fs.find? (fun p => p.1 = k)).map Prod.snd
  | _ => none

/-- JS `a || b` on two optionally-present values: keep `a` when truthy. -/
def jsOrJ (a b : Option Json) : Option Json :=
  match a with
  | some v => if v.truthy then some v else b
  | none => b

/-- Keep a value only when truthy (used to model `if (x)` guards). -/
def jtruthy? (a : Option Json) : Option Json :=
  match a with
  | some v => if v.truthy then some v else none
  | none => none

/-- JS `??`: skip `null` (and absence) -/
def nnSkip (a : Option Json) : Option Json :=
  match a with
  | some .null => none
  | x => x

/-! ### JSON parsing (`JSON.parse`)

A recursive-descent parser over character lists.  The fuel argument is
decremented at every recursive call; since each call follows the consumption
of at least one character, fuel `length + 1` never runs out. -/

/-- Decode one hex digit. -/
def hexVal (c : Char) : Option Nat :=
  let n := c.toNat
  if 48 ≤ n ∧ n ≤ 57 then some (n - 48)
  else if 97 ≤ n ∧ n ≤ 102 then some (n - 87)
  else if 65 ≤ n ∧ n ≤ 70 then some (n - 55)
  else none

/-- Character for a Unicode code point; lone surrogates (not representable as
scalar values) become U+FFFD. -/
def charOfCode (n : Nat) : Char :=
  if h : n < 0xd800 then ⟨⟨n, by omega⟩, Or.inl h⟩
  else if h' : 0xe000 ≤ n ∧ n < 0x110000 then ⟨⟨n, by omega⟩, Or.inr ⟨h'.1, h'.2⟩⟩
  else '�'

/-- Parse the body of a JSON string literal (after the opening quote),
returning the decoded content and the input after the closing quote.
Mirrors `JSON.parse`: raw control characters are rejected and escapes are
decoded.  (Modelling note: JS strings are UTF-16, so a surrogate pair of
`\uXXXX` escapes makes one astral character there; Lean characters are
Unicode scalars, and this model maps each surrogate escape to U+FFFD.  No
claim in scope involves astral escapes.) -/
def parseStrBody : List Char → Option (List Char × List Char)
  | [] => none
  | '"' :: r => some ([], r)
  | '\\' :: 'u' :: h1 :: h2 :: h3 :: h4 :: r' =>
      match hexVal h1, hexVal h2, hexVal h3, hexVal h4 with
      | some a, some b, some c, some d =>
          let code := ((a * 16 + b) * 16 + c) * 16 + d
          (parseStrBody r').map (fun p => (charOfCode code :: p.1, p.2))
      | _, _, _, _ => none
  | '\\' :: e :: r' =>
      let dec : Option Char :=
        if e = '"' then some '"'
        else if e = '\\' then some '\\'
        else if e = '/' then some '/'
        else if e = 'n' then some '\n'
        else if e = 'r' then some '\r'
        else if e = 't' then some '\t'
        else if e = 'b' then some '\x08'
        else if e = 'f' then some '\x0c'
        else none
      match dec with
      | some c => (parseStrBody r').map (fun p => (c :: p.1, p.2))
      | none => none
  | c :: r =>
      if c.toNat < 32 then none
      else (parseStrBody r).map (fun p => (c :: p.1, p.2))

/-- Scan the integer-digits / fraction / exponent tail of a number lexeme. -/
def numTail (cs : List Char) : List Char × List Char :=
  let ds := cs.takeWhile Char.isDigit
  let r1 := cs.drop ds.length
  let (frac, r2) :=
    match r1 with
    | '.' :: r =>
        let fs := r.takeWhile Char.isDigit
        if fs = [] then ([], r1) else ('.' :: fs, r.drop fs.length)
    | _ => ([], r1)
  match r2 with
  | e :: r =>
      if e = 'e' || e = 'E' then
        let (sgn, r3) :=
          match r with
          | s :: r' => if s = '+' || s = '-' then ([s], r') else ([], r)
          | [] => ([], r)
        let es := r3.takeWhile Char.isDigit
        if es = [] then (ds ++ frac, r2)
        else (ds ++ frac ++ e :: sgn ++ es, r3.drop es.length)
      else (ds ++ frac, r2)
  | [] => (ds ++ frac, r2)

/-- Parse a JSON number lexeme (sign already not consumed). -/
def parseNum (cs : List Char) : Option (Json × List Char) :=
  let (neg, r0) := match cs with | '-' :: r => (true, r) | _ => (false, cs)
  match r0 with
  | c :: _ =>
      if c.isDigit then
        let (body, rest) := numTail r0
        -- JSON forbids leading zeros like 05; accept-shape check:
        match body with
        | '0' :: d :: _ => if d.isDigit then none else
            some (.num ⟨(if neg then ['-'] else []) ++ body⟩, rest)
        | _ => some (.num ⟨(if neg then ['-'] else []) ++ body⟩, rest)
      else none
  | [] => none

/-- Insert a key into an object's field list with JS duplicate-key
semantics: the last value wins, the first occurrence keeps its position. -/
def assocSet (l : List (String × Json)) (k : String) (v : Json) :
    List (String × Json) :=
  if l.any (fun p => p.1 = k) then
    l.map (fun p => if p.1 = k then (k, v) else p)
  else l ++ [(k, v)]

mutual

/-- Parse one JSON value; returns the value and the unconsumed input. -/
def parseValue : Nat → List Char → Option (Json × List Char)
  | 0, _ => none
  | f + 1, cs =>
      match dropWs cs with
      | '{' :: r => parseObjBody f r
      | '[' :: r => parseArrBody f r
      | '"' :: r => (parseStrBody r).map (fun p => (.str ⟨p.1⟩, p.2))
      | 't' :: 'r' :: 'u' :: 'e' :: r => some (.bool true, r)
      | 'f' :: 'a' :: 'l' :: 's' :: 'e' :: r => some (.bool false, r)
      | 'n' :: 'u' :: 'l' :: 'l' :: r => some (.null, r)
      | c :: r => if c = '-' || c.isDigit then parseNum (c :: r) else none
      | [] => none

/-- Parse the inside of an object, after the `{`. -/
def parseObjBody : Nat → List Char → Option (Json × List Char)
  | 0, _ => none
  | f + 1, cs =>
      match dropWs cs with
      | '}' :: r => some (.obj [], r)
      | _ => parseObjPairs f cs []

/-- Parse the members of a non-empty object. -/
def parseObjPairs : Nat → List Char → List (String × Json) →
    Option (Json × List Char)
  | 0, _, _ => none
  | f + 1, cs, acc =>
      match dropWs cs with
      | '"' :: r =>
          match parseStrBody r with
          | none => none
          | some (key, r1) =>
              match dropWs r1 with
              | ':' :: r2 =>
                  match parseValue f r2 with
                  | none => none
                  | some (v, r3) =>
                      let acc' := assocSet acc ⟨key⟩ v
                      match dropWs r3 with
                      | ',' :: r4 => parseObjPairs f r4 acc'
                      | '}' :: r4 => some (.obj acc', r4)
                      | _ => none
              | _ => none
      | _ => none

/-- Parse the inside of an array, after the `[`. -/
def parseArrBody : Nat → List Char → Option (Json × List Char)
  | 0, _ => none
  | f + 1, cs =>
      match dropWs cs with
      | ']' :: r => some (.arr [], r)
      | _ => parseArrElems f cs []

/-- Parse the elements of a non-empty array. -/
def parseArrElems : Nat → List Char → List Json → Option (Json × List Char)
  | 0, _, _ => none
  | f + 1, cs, acc =>
      match parseValue f cs with
      | none => none
      | some (v, r1) =>
          match dropWs r1 with
          | ',' :: r2 => parseArrElems f r2 (acc ++ [v])
          | ']' :: r2 => some (.arr (acc ++ [v]), r2)
          | _ => none

end

/-- `JSON.parse`: parse a complete value and require only trailing
whitespace after it; `none` models a thrown `SyntaxError`. -/
def jsonParse (s : String) : Option Json :=
  match parseValue (s.data.length + 1) s.data with
  | some (v, rest) => if dropWs rest = [] then some v else none
  | none => none

/-! ### JSON serialization of strings and compact values -/

/-- One hex digit character. -/
def hexDigit (n : Nat) : Char :=
  if n < 10 then Char.ofNat ('0'.toNat + n) else Char.ofNat ('a'.toNat + n - 10)

/-- JSON encoding of one character inside a string literal. -/
def encChar (c : Char) : List Char :=
  if c = '"' then ['\\', '"']
  else if c = '\\' then ['\\', '\\']
  else if c = '\n' then ['\\', 'n']
  else if c = '\r' then ['\\', 'r']
  else if c = '\t' then ['\\', 't']
  else if c = '\x08' then ['\\', 'b']
  else if c = '\x0c' then ['\\', 'f']
  else if c.toNat < 32 then
    ['\\', 'u', '0', '0', hexDigit (c.toNat / 16), hexDigit (c.toNat % 16)]
  else [c]

/-- JSON encoding of a string, quotes included (as `JSON.stringify` quotes
strings). -/
def jsonQuote (s : String) : String :=
  ⟨'"' :: s.data.flatMap encChar ++ ['"']⟩

mutual

/-- Compact `JSON.stringify` of an acyclic value (no replacer, no
indentation), as used for the recorded `arguments` of a tool call. -/
def stringifyCompact : Json → String
  | .null => "null"
  | .bool b => if b then "true" else "false"
  | .num lex => lex
  | .str s => jsonQuote s
  | .arr l => "[" ++ stringifyCList l ++ "]"
  | .obj fs => "\x7b" ++ stringifyCFields fs ++ "\x7d"

/-- Comma-separated compact serialization of array elements. -/
def stringifyCList : List Json → String
  | [] => ""
  | [v] => stringifyCompact v
  | v :: r => stringifyCompact v ++ "," ++ stringifyCList r

/-- Comma-separated compact serialization of object members. -/
def stringifyCFields : List (String × Json) → String
  | [] => ""
  | [(k, v)] => jsonQuote k ++ ":" ++ stringifyCompact v
  | (k, v) :: r => jsonQuote k ++ ":" ++ stringifyCompact v ++ "," ++ stringifyCFields r

end

/-- JS `String(v)` on a JSON value (used by template literals and by
`JSON.parse`'s argument coercion).  A number prints as its lexeme, which
denotes the same number. -/
def jsToString : Json → String
  | .null => "null"
  | .bool b => if b then "true" else "false"
  | .num lex => lex
  | .str s => s
  | .arr l => String.intercalate "," (l.map (fun v =>
      match v with
      | .null => ""
      | .str s => s
      | .bool b => if b then "true" else "false"
      | .num lex => lex
      | _ => "[object Object]"))
  | .obj _ => "[object Object]"

/-! ### The fenced-code-block regexes

`tryParseToolCall` first runs
`text.replace(/```(?:json)?\s*([\s\S]*?)\s*```/i, '$1')`: an **unanchored**
replacement of the leftmost fenced block (wherever it occurs) by its lazy
inner content.  The nested argument parsers use the anchored variant
`/^```(?:json)?\s*([\s\S]*?)\s*```$/i` instead. -/

/-- Case-insensitive match of the literal `json`. -/
def pfxJsonCI : List Char → Bool
  | j :: s :: o :: n :: _ =>
      (j = 'j' || j = 'J') && (s = 's' || s = 'S') &&
      (o = 'o' || o = 'O') && (n = 'n' || n = 'N')
  | _ => false

/-- Three backticks at the head of the input. -/
def pfxBT (cs : List Char) : Bool := pfxAt ['`', '`', '`'] cs

/-- Match `\s*` then a closing triple backtick; returns the input after the
backticks.  (`\s*` can be taken greedily: a backtick is not whitespace, so
the closing fence can only start at the end of the whitespace run.) -/
def closeFence (cs : List Char) : Option (List Char) :=
  let t := dropWs cs
  if pfxBT t then some (t.drop 3) else none

/-- One step of the lazy close scan: stop if the close matches here, else
extend the content by the head character. -/
def lazyCloseStep (c : Char) (close : Option (List Char))
    (tail : Option (List Char × List Char)) : Option (List Char × List Char) :=
  match close with
  | some rest => some ([], rest)
  | none => tail.map (fun p => (c :: p.1, p.2))

/-- Lazy scan for the closing fence: the shortest content such that the rest
matches `\s*` three backticks.  Returns (content, rest after the match). -/
def lazyClose : List Char → Option (List Char × List Char)
  | [] => none
  | c :: r => lazyCloseStep c (closeFence (c :: r)) (lazyClose r)

/-- Try to match the fence regex at the head of the input (which must carry
the opening backticks); returns (captured content, rest after the match). -/
def fenceMatchAt (cs : List Char) : Option (List Char × List Char) :=
  if pfxBT cs then
    let afterOpen := cs.drop 3
    let afterJson := if pfxJsonCI afterOpen then afterOpen.drop 4 else afterOpen
    lazyClose (dropWs afterJson)
  else none

/-- One step of the leftmost-match scan. -/
def fenceReplaceStep (c : Char) (m : Option (List Char × List Char))
    (tail : List Char) : List Char :=
  match m with
  | some (content, rest) => content ++ rest
  | none => c :: tail

/-- Leftmost-match replacement of the fence regex by its captured group. -/
def fenceReplaceFirst : List Char → List Char
  | [] => []
  | c :: r => fenceReplaceStep c (fenceMatchAt (c :: r)) (fenceReplaceFirst r)

/-- The first step of `tryParseToolCall`:
`(text || '').replace(/```(?:json)?\s*([\s\S]*?)\s*```/i, '$1').trim()`. -/
def cleanedText (text : String) : String :=
  jsTrim ⟨fenceReplaceFirst text.data⟩

/-- The anchored fence strip used on string-typed arguments:
`s.replace(/^```(?:json)?\s*([\s\S]*?)\s*```$/i, '$1')`.  The whole string
must be the fenced block; the captured group is the inner content with the
surrounding whitespace absorbed by the greedy `\s*`s. -/
def stripFenceAnchored (s : String) : String :=
  let cs := s.data
  if pfxBT cs then
    let afterOpen := cs.drop 3
    let afterJson := if pfxJsonCI afterOpen then afterOpen.drop 4 else afterOpen
    if afterJson.length ≥ 3 && pfxBT (afterJson.drop (afterJson.length - 3)) then
      jsTrim ⟨afterJson.take (afterJson.length - 3)⟩
    else s
  else s

/-! ### The decision protocol (`tryParseToolCall`) -/

/-- A normalized tool call `{id, name, args}` as produced by the parser and
by the loop's own normalization.  In JS these fields hold arbitrary values
(a numeric `name` survives the truthiness filter), hence `Json` here. -/
structure JsCall where
  id : Json
  name : Json
  args : Json

/-- The value `tryParseToolCall` resolves to: `{toolCalls, content,
stopReason}` with `toolCalls` and `content` each either present or `null`. -/
structure Decision where
  toolCalls : Option (List JsCall)
  content : Option String
  stopReason : String

/-- Build a content decision. -/
def Decision.mkContent (s : String) (r : String) : Decision :=
  ⟨none, some s, r⟩

/-- Build a tool-calls decision. -/
def Decision.mkCalls (l : List JsCall) : Decision :=
  ⟨some l, none, "continue"⟩

/-- The robust argument parser of `llm_providers.js` (`robustParseArgs`):
objects and arrays pass through, strings are trimmed, stripped of an
enclosing fence and `JSON.parse`d, everything else becomes `{}`.  The
nested `JSON.parse(JSON.parse(s))` fallback of the source re-parses the
same string that just failed to parse, so it throws again and the catch
returns `{}`: the double-parse branch never produces a value. -/
def robustParseArgs (val : Json) : Json :=
  match val with
  | .null => .obj []
  | .obj _ => val
  | .arr _ => val
  | .str s =>
      let s' := jsTrim (stripFenceAnchored (jsTrim s))
      match jsonParse s' with
      | some v => v
      | none => .obj []
  | _ => .obj []

/-- `robustParseArgs` applied to a possibly-absent value (`undefined` maps
to `{}` through the `val == null` test). -/
def robustParseArgsO (val : Option Json) : Json :=
  match val with
  | some v => robustParseArgs v
  | none => .obj []

/-- The argument sources of a `tool_calls` entry:
`c?.arguments ?? c?.args ?? c?.function?.arguments ?? {}`. -/
def entryRawArgs (c : Json) : Option Json :=
  (nnSkip (c.getOpt "arguments")).orElse (fun _ =>
    (nnSkip (c.getOpt "args")).orElse (fun _ =>
      nnSkip ((c.getOpt "function").bind (fun f => f.getOpt "arguments"))))

/-- Normalize one entry of a `tool_calls` array (llm_providers.js:61-68):
the name comes from `name`/`tool`/`function.name` and must be truthy; the
id is `c?.id || name` (the dated fallback is unreachable because `name` is
already truthy at that point). -/
def parseEntry (c : Json) : Option JsCall :=
  match jtruthy? (jsOrJ (c.getOpt "name") (jsOrJ (c.getOpt "tool")
      ((c.getOpt "function").bind (fun f => f.getOpt "name")))) with
  | none => none
  | some name =>
      let args := robustParseArgsO (entryRawArgs c)
      let id :=
        match jtruthy? (c.getOpt "id") with
        | some v => v
        | none => name
      some ⟨id, name, args⟩

/-- The strict-parse branch of `tryParseToolCall` (lines 50-89): `none`
models both a `JSON.parse` failure and the `TypeError` thrown by the
property access `obj.final` when the text parses to `null` — either lands
in the inner catch and falls through to the heuristics — as well as the
fall-through when no case returns. -/
def strictBranch (cleaned : String) : Option Decision :=
  match jsonParse cleaned with
  | none => none
  | some obj =>
    match obj with
    | .null => none
    | _ =>
      -- Case 1: final answer
      match obj.getOpt "final" with
      | some (.str s) => some (Decision.mkContent s "final")
      | _ =>
        -- Case 2: multiple tool calls
        let case2 : Option Decision :=
          match obj.getOpt "tool_calls" with
          | some (.arr l) =>
              let calls := l.filterMap parseEntry
              if calls.length > 0 then some (Decision.mkCalls calls) else none
          | _ => none
        match case2 with
        | some d => some d
        | none =>
          -- Case 3: single tool call in object form
          match jtruthy? (jsOrJ (obj.getOpt "tool") (obj.getOpt "name")) with
          | some toolName =>
              let toolArgs := robustParseArgsO
                ((nnSkip (obj.getOpt "arguments")).orElse (fun _ =>
                  nnSkip (obj.getOpt "args")))
              some (Decision.mkCalls [⟨toolName, toolName, toolArgs⟩])
          | none =>
            -- Case 4: parsed to a plain string
            match obj with
            | .str s => if jsTrim s ≠ "" then
                some (Decision.mkContent (jsTrim s) "continue") else none
            | _ => none

/-! Heuristic 1: the unanchored lazy regex
`/{\s*"final"\s*:\s*"([\s\S]*?)"\s*}/` — locate an embedded final-answer
pattern and capture its raw (not unescaped) content. -/

/-- One step of the lazy final-content scan: a quote closes the capture
when only whitespace separates it from a closing brace. -/
def h1Step (c : Char) (r : List Char) (tail : Option (List Char)) :
    Option (List Char) :=
  if c = '"' then
    match dropWs r with
    | '}' :: _ => some []
    | _ => tail.map (fun ct => c :: ct)
  else tail.map (fun ct => c :: ct)

/-- Lazy scan for `"` `\s*` `}` terminating the captured content. -/
def h1Lazy : List Char → Option (List Char)
  | [] => none
  | c :: r => h1Step c r (h1Lazy r)

/-- Match heuristic 1 at the head of the input. -/
def h1At (cs : List Char) : Option (List Char) :=
  match cs with
  | '{' :: r =>
      match dropWs r with
      | '"' :: 'f' :: 'i' :: 'n' :: 'a' :: 'l' :: '"' :: r1 =>
          match dropWs r1 with
          | ':' :: r2 =>
              match dropWs r2 with
              | '"' :: r3 => h1Lazy r3
              | _ => none
          | _ => none
      | _ => none
  | _ => none

/-- Leftmost match of heuristic 1. -/
def h1Find : List Char → Option (List Char)
  | [] => none
  | c :: r => (h1At (c :: r)).orElse (fun _ => h1Find r)

/-! Heuristic 2: the embedded single-tool-call regex
`/{\s*["'](tool|name)["']\s*:\s*["']([^"']+)["']\s*,\s*["']arguments["']\s*:\s*({[^}]*}|"[^"]*")\s*}/`.
Every quantified part of this pattern is determined by its follow set, so a
single deterministic scan suffices; the whole matched text is then handed
to `JSON.parse`. -/

/-- A quote character of the `["']` class. -/
def isQuote (c : Char) : Bool := c = '"' || c = '\''

/-- Match heuristic 2 at the head of the input, returning the input
remaining after the match (the matched text is the consumed difference). -/
def h2At (cs : List Char) : Option (List Char) :=
  match cs with
  | '{' :: r =>
    match dropWs r with
    | q1 :: r1 =>
      if isQuote q1 then
        let afterKey : Option (List Char) :=
          match r1 with
          | 't' :: 'o' :: 'o' :: 'l' :: r2 => some r2
          | 'n' :: 'a' :: 'm' :: 'e' :: r2 => some r2
          | _ => none
        match afterKey with
        | none => none
        | some r2 =>
          match r2 with
          | q2 :: r3 =>
            if isQuote q2 then
              match dropWs r3 with
              | ':' :: r4 =>
                match dropWs r4 with
                | q3 :: r5 =>
                  if isQuote q3 then
                    let v := r5.takeWhile (fun c => !(isQuote c))
                    if v = [] then none else
                    match r5.drop v.length with
                    | q4 :: r6 =>
                      if isQuote q4 then
                        match dropWs r6 with
                        | ',' :: r7 =>
                          match dropWs r7 with
                          | q5 :: r8 =>
                            if isQuote q5 then
                              match r8 with
                              | 'a' :: 'r' :: 'g' :: 'u' :: 'm' :: 'e' :: 'n' :: 't' :: 's' :: q6 :: r9 =>
                                if isQuote q6 then
                                  match dropWs r9 with
                                  | ':' :: r10 =>
                                    match dropWs r10 with
                                    | '{' :: r11 =>
                                        let body := r11.takeWhile (fun c => c ≠ '}')
                                        (match r11.drop body.length with
                                         | '}' :: r12 =>
                                             match dropWs r12 with
                                             | '}' :: r13 => some r13
                                             | _ => none
                                         | _ => none)
                                    | '"' :: r11 =>
                                        let body := r11.takeWhile (fun c => c ≠ '"')
                                        (match r11.drop body.length with
                                         | '"' :: r12 =>
                                             match dropWs r12 with
                                             | '}' :: r13 => some r13
                                             | _ => none
                                         | _ => none)
                                    | _ => none
                                  | _ => none
                                else none
                              | _ => none
                            else none
                          | _ => none
                        | _ => none
                      else none
                    | _ => none
                  else none
                | _ => none
              | _ => none
            else none
          | _ => none
      else none
    | _ => none
  | _ => none

/-- Leftmost match of heuristic 2, returning the full matched substring. -/
def h2Find : List Char → Option (List Char)
  | [] => none
  | c :: r =>
      ((h2At (c :: r)).map
        (fun rest => (c :: r).take ((c :: r).length - rest.length))).orElse
        (fun _ => h2Find r)

/-- `tryParseToolCall` (llm_providers.js:31-126): strip the leftmost fenced
block and trim; try the strict JSON branch; then heuristics 1 and 2; then
return the cleaned text as plain content if non-empty, else the raw text.
A `JSON.parse` failure inside heuristic 2 throws to the outer catch, which
swallows it and returns the raw text. -/
def tryParseToolCall (text : String) : Decision :=
  let cleaned := cleanedText text
  match strictBranch cleaned with
  | some d => d
  | none =>
    match h1Find cleaned.data with
    | some content => Decision.mkContent ⟨content⟩ "final"
    | none =>
      match h2Find cleaned.data with
      | some matched =>
          match jsonParse ⟨matched⟩ with
          | none => Decision.mkContent text "continue"
          | some parsed =>
              match jtruthy? (jsOrJ (parsed.getOpt "tool") (parsed.getOpt "name")) with
              | some toolName =>
                  ⟨some [⟨toolName, toolName,
                    robustParseArgsO (parsed.getOpt "arguments")⟩], none, "continue"⟩
              | none =>
                  if cleaned ≠ "" then Decision.mkContent cleaned "continue"
                  else Decision.mkContent text "continue"
      | none =>
          if cleaned ≠ "" then Decision.mkContent cleaned "continue"
          else Decision.mkContent text "continue"

/-! ### The observation sanitizer (`Agent.sanitizeObservation`)

Tool results are arbitrary JS values, possibly cyclic, so they are modelled
by a value type whose objects and arrays live in a finite heap of addressed
nodes.  `JSON.stringify`'s replacer walks this graph guarded by the `seen`
set; the fuel argument only falls when descending into a not-yet-seen,
present address, so `heap.length + 1` fuel never runs out (proved below). -/

inductive JVal where
  | null : JVal
  | undef : JVal
  | bool (b : Bool) : JVal
  | num (n : Int) : JVal
  | bigint (n : Int) : JVal
  | str (s : String) : JVal
  | ref (a : Nat) : JVal

/-- A heap node: an object or an array (element order is the field order;
array field names are ignored). -/
structure JObj where
  isArr : Bool
  fields : List (String × JVal)

/-- A finite heap of addressed objects. -/
def Heap := List (Nat × JObj)

/-- Address lookup. -/
def heapFind (h : Heap) (a : Nat) : Option JObj :=
  (List.find? (fun p => p.1 = a) h).map Prod.snd

/-- Result of serializing one property: fuel ran out (never happens from
the sanitizer's entry point), the JS `undefined` (property is skipped), or
a rendered string. -/
inductive SRes where
  | oog : SRes
  | undef : SRes
  | ok (s : String) : SRes

/-- Join strings with a separator. -/
def joinSep (sep : String) : List String → String
  | [] => ""
  | [p] => p
  | p :: r => p ++ sep ++ joinSep sep r

/-- Layout of `JSON.stringify(_, _, 2)` for a non-empty object or array:
entries one per line, indented two spaces past the closing bracket. -/
def renderBlock (bOpen bClose ind : String) (parts : List String) : String :=
  match parts with
  | [] => bOpen ++ bClose
  | _ => bOpen ++ "\n" ++ ind ++ "  " ++
      joinSep (",\n" ++ ind ++ "  ") parts ++ "\n" ++ ind ++ bClose

/-- Prepend one rendered entry to the result of the rest of a fold. -/
def consPart (s : String) (rec : (SRes ⊕ List String) × List Nat) :
    (SRes ⊕ List String) × List Nat :=
  match rec with
  | (.inl x, s2) => (.inl x, s2)
  | (.inr ps, s2) => (.inr (s :: ps), s2)

/-- Fold a serializer over array elements in order, threading the `seen`
set; an `undefined` element renders as `null` (as `JSON.stringify` does
inside arrays). -/
def elemsGo (f : List Nat → JVal → SRes × List Nat) :
    List Nat → List JVal → (SRes ⊕ List String) × List Nat
  | seen, [] => (.inr [], seen)
  | seen, v :: r =>
      match f seen v with
      | (.oog, s') => (.inl .oog, s')
      | (.undef, s') => consPart "null" (elemsGo f s' r)
      | (.ok s, s') => consPart s (elemsGo f s' r)

/-- Fold a serializer over object members in order, threading the `seen`
set; members whose value serializes to `undefined` are skipped. -/
def membersGo (f : List Nat → JVal → SRes × List Nat) :
    List Nat → List (String × JVal) → (SRes ⊕ List String) × List Nat
  | seen, [] => (.inr [], seen)
  | seen, (k, v) :: r =>
      match f seen v with
      | (.oog, s') => (.inl .oog, s')
      | (.undef, s') => membersGo f s' r
      | (.ok s, s') => consPart (jsonQuote k ++ ": " ++ s) (membersGo f s' r)

/-- Serialize one value as the replacer-wrapped `JSON.stringify` of
`sanitizeObservation` does (agent.js:63-74): BigInts are downcast to
numbers; an object reference met a second time renders as the string
`"[Circular]"`; a first-met reference is added to `seen` and its node is
descended into with two more spaces of indentation.  The fuel argument
falls only when descending into a present, not-yet-seen node, so
`heap.length + 1` fuel never runs out (proved below); a dangling address
cannot arise from a real JS value and renders as `null`. -/
def serializeChild : Nat → Heap → List Nat → String → JVal → SRes × List Nat
  | g, heap, seen, ind, v =>
      match v with
      | .null => (.ok "null", seen)
      | .undef => (.undef, seen)
      | .bool b => (.ok (if b then "true" else "false"), seen)
      | .num n => (.ok (toString n), seen)
      | .bigint n => (.ok (toString n), seen)
      | .str s => (.ok (jsonQuote s), seen)
      | .ref a =>
          if a ∈ seen then (.ok (jsonQuote "[Circular]"), seen)
          else
            match heapFind heap a with
            | none => (.ok "null", a :: seen)
            | some node =>
                match g with
                | 0 => (.oog, a :: seen)
                | g' + 1 =>
                    if node.isArr then
                      match elemsGo (fun sn w => serializeChild g' heap sn (ind ++ "  ") w)
                          (a :: seen) (node.fields.map Prod.snd) with
                      | (.inl x, s2) => (x, s2)
                      | (.inr ps, s2) => (.ok (renderBlock "[" "]" ind ps), s2)
                    else
                      match membersGo (fun sn w => serializeChild g' heap sn (ind ++ "  ") w)
                          (a :: seen) node.fields with
                      | (.inl x, s2) => (x, s2)
                      | (.inr ps, s2) => (.ok (renderBlock "\x7b" "\x7d" ind ps), s2)

/-- Entry point of the guarded `JSON.stringify(value, replacer, 2)` call:
serialize with an empty `seen` set and fuel `heap.length + 1` (shown below
never to run out). -/
def topSerialize (heap : Heap) (v : JVal) : SRes :=
  (serializeChild (heap.length + 1) heap [] "" v).1

/-- JS `String(v)` coercion for sanitizer values (only reached for
primitives on the live paths; the object fallback is the generic
`Object.prototype.toString` rendering). -/
def jvToString : JVal → String
  | .null => "null"
  | .undef => "undefined"
  | .bool b => if b then "true" else "false"
  | .num n => toString n
  | .bigint n => toString n
  | .str s => s
  | .ref _ => "[object Object]"

/-- The `escAndTrunc` closure of `sanitizeObservation` (agent.js:42-52): the
three "escape" replacements literally substitute each of `&`, `<`, `>` by
itself, then the result is truncated to `limit` characters with a single
trailing ellipsis when it was longer.  (JS slices by UTF-16 units; this
model slices by characters, which agrees on all inputs in scope.) -/
def escAndTrunc (limit : Nat) (s : String) : String :=
  let safe := jsReplaceChar '>' ">" (jsReplaceChar '<' "<" (jsReplaceChar '&' "&" s))
  if safe.length > limit then ⟨safe.data.take limit⟩ ++ "…" else safe

/-- `Agent.sanitizeObservation` (agent.js:39-79): `null`/`undefined` map to
the empty string, primitives are stringified then passed through
`escAndTrunc`, objects are serialized by the guarded `JSON.stringify`.  A
serialization that returns `undefined` leaves the JS template producing the
empty string through the same escape path; the out-of-fuel branch stands in
for the dead `catch` fallback (`String(value)`) and is proved unreachable. -/
def sanitizeObservation (limit : Nat) (heap : Heap) (v : JVal) : String :=
  match v with
  | .null => ""
  | .undef => ""
  | .str s => escAndTrunc limit s
  | .num n => escAndTrunc limit (jvToString (.num n))
  | .bool b => escAndTrunc limit (jvToString (.bool b))
  | _ =>
      match topSerialize heap v with
      | .ok json => escAndTrunc limit json
      | .undef => escAndTrunc limit ""
      | .oog => escAndTrunc limit (jvToString v)

/-! ### The agent loop (`Agent.run`)

The provider and the tool implementations are synchronous functions here
(the JS `await`s impose a single sequential flow); a tool either resolves
to a value in the sanitizer's heap model or fails with a message — the
failure case covers both a rejection and the timeout of `runWithTimeout`.
The two callbacks `onThought` / `onMessage` are modelled as recorded
streams; all lists of emitted events and the history are stored
newest-first. -/

/-- The result a tool implementation settles with. -/
inductive ToolRes where
  | ok (heap : Heap) (v : JVal) : ToolRes
  | err (msg : String) : ToolRes

/-- A registered tool: `{function: {name, implementation}}` (description
and usage do not influence the loop). -/
structure ToolSpec where
  name : String
  implementation : Json → ToolRes

/-- A recorded tool call inside an assistant history turn:
`{id, function: {name, arguments}}` with `arguments` JSON-stringified. -/
structure ARec where
  id : Json
  name : Json
  args : String

/-- One history turn.  `assistant` always carries a content string (the
tool-call turn sets it to `""`), matching the uniform turn shape the source
maintains. -/
inductive Turn where
  | user (content : String) : Turn
  | assistant (content : String) (tool_calls : List ARec) : Turn
  | tool (tool_call_id : Json) (content : String) : Turn

/-- A raw tool call as found in a provider step. -/
structure RawCall where
  id : Option Json
  name : Option Json
  tool : Option Json
  args : Option Json
  arguments : Option Json

/-- The raw step object a provider resolves with; every field is read
defensively by `run` (`toolCalls || tool_calls || []`, etc.). -/
structure Step where
  toolCalls : Option (List RawCall)
  tool_calls : Option (List RawCall)
  stopReason : Option String
  stop_reason : Option String
  content : Option String

/-- The agent object: the fields set up by the constructor.  `genId` stands
for the `crypto.randomUUID()` / dated-random fallback used when a call has
no id; it is a parameter because its output is nondeterministic in JS.
`llmProvider.getCompletion` is the provider function (the model never sees
the tool list in this core, so the provider takes only the history). -/
structure Agent where
  llmProvider : List Turn → Step
  tools : List (Option ToolSpec)
  maxTurns : Nat := 10
  obsTruncateChars : Nat := 3000
  genId : Nat → Nat → String

/-- The registry built by the constructor (agent.js:10-14): entries with a
`function` are indexed by name, later entries shadowing earlier ones.  A JS
`Map` keyed by strings never matches a non-string lookup key. -/
def Agent.registry (ag : Agent) (name : Json) : Option ToolSpec :=
  match name with
  | .str s => (ag.tools.filterMap id).foldl
      (fun acc t => if t.name = s then some t else acc) none
  | _ => none

/-- The mutable run state: history plus the two recorded event streams and
the number of provider calls made (all newest-first). -/
structure St where
  history : List Turn
  messages : List (String × String)
  thoughts : List String
  providerCalls : Nat

/-- Append a history turn. -/
def St.push (s : St) (t : Turn) : St := { s with history := t :: s.history }

/-- Record an `onMessage` emission. -/
def St.say (s : St) (role text : String) : St :=
  { s with messages := (role, text) :: s.messages }

/-- Record an `onThought` emission. -/
def St.think (s : St) (text : String) : St :=
  { s with thoughts := text :: s.thoughts }

/-- JS `a || b` for optional lists: any present array (even empty) is
truthy. -/
def jsOrL (a b : Option (List RawCall)) : Option (List RawCall) :=
  match a with
  | some l => some l
  | none => b

/-- JS `a || b || "continue"` on optional strings, where `""` is falsy. -/
def strOr3 (a b : Option String) (d : String) : String :=
  match a with
  | some s => if s ≠ "" then s else (match b with
      | some s' => if s' ≠ "" then s' else d
      | none => d)
  | none => (match b with
      | some s' => if s' ≠ "" then s' else d
      | none => d)

/-- Normalization of one raw call inside `run` (agent.js:101-123): name from
`call.name || call.tool`; string arguments are fence-stripped and parsed
(the double-parse rescue re-parses the same failed text, so it always falls
to `{}`); non-object arguments become `{}`; a falsy id is replaced by a
generated one.  Entries whose name stays falsy are dropped afterwards. -/
def normalizeCall (ag : Agent) (i idx : Nat) (call : RawCall) :
    Option JsCall :=
  let args0 := match nnSkip call.args with
    | some v => v
    | none => match nnSkip call.arguments with
      | some v => v
      | none => .obj []
  let args1 := match args0 with
    | .str s =>
        let s' := jsTrim (stripFenceAnchored (jsTrim s))
        (match jsonParse s' with
         | some v => v
         | none => .obj [])
    | v => v
  let args := match args1 with
    | .obj _ => args1
    | .arr _ => args1
    | _ => .obj []
  let id := match jtruthy? call.id with
    | some v => v
    | none => .str (ag.genId i idx)
  match jtruthy? (jsOrJ call.name call.tool) with
  | some name => some ⟨id, name, args⟩
  | none => none

/-- All normalized calls of a step, in input order (the index drives the
generated-id fallback). -/
def normalizeCallsFrom (ag : Agent) (i : Nat) : Nat → List RawCall → List JsCall
  | _, [] => []
  | idx, c :: r =>
      match normalizeCall ag i idx c with
      | some nc => nc :: normalizeCallsFrom ag i (idx + 1) r
      | none => normalizeCallsFrom ag i (idx + 1) r

/-- All normalized calls of a step, in input order. -/
def normalizeCalls (ag : Agent) (i : Nat) (calls : List RawCall) : List JsCall :=
  normalizeCallsFrom ag i 0 calls

/-- The sanitized observation text for a dispatched call whose tool was
found: the settled result, or the failure text for a rejection/timeout,
through `sanitizeObservation`. -/
def obsTextOf (ag : Agent) (t : ToolSpec) (c : JsCall) : String :=
  match t.implementation c.args with
  | .ok heap v => sanitizeObservation ag.obsTruncateChars heap v
  | .err m => sanitizeObservation ag.obsTruncateChars []
      (.str ("Tool '" ++ jsToString c.name ++ "' failed: " ++ m))

/-- The content of the tool turn recorded for a dispatched call: the
unknown-tool notice when the name is unregistered, otherwise the sanitized
observation. -/
def obsContent (ag : Agent) (c : JsCall) : String :=
  match ag.registry c.name with
  | none => "OBSERVATION[" ++ jsToString c.name ++ "]: Unknown tool '" ++
      jsToString c.name ++ "'. Please choose a listed tool."
  | some t => "OBSERVATION[" ++ jsToString c.name ++ "]: " ++ obsTextOf ag t c

/-- The tool turn recorded for a dispatched call. -/
def toolTurnOf (ag : Agent) (c : JsCall) : Turn := .tool c.id (obsContent ag c)

/-- Dispatch one normalized call (agent.js:136-164): an unregistered name
yields the unknown-tool observation; otherwise the implementation runs
under the timeout guard and its result (or failure text) is sanitized.
Exactly one tool turn is pushed either way. -/
def execCall (ag : Agent) (s : St) (c : JsCall) : St :=
  match ag.registry c.name with
  | none =>
      let s := s.think ("[act] Unknown tool '" ++ jsToString c.name ++
        "'. Please choose a listed tool.")
      s.push (toolTurnOf ag c)
  | some t =>
      let s := s.think ("[act] Executing " ++ jsToString c.name ++ " " ++ stringifyCompact c.args)
      let obsText := obsTextOf ag t c
      let s := s.think ("[observe] " ++ jsToString c.name ++ " => " ++
        ⟨obsText.data.take 120⟩ ++ (if obsText.length > 120 then "…" else ""))
      s.push (toolTurnOf ag c)

/-- Dispatch a list of calls sequentially, in order. -/
def execCalls (ag : Agent) (cs : List JsCall) (s : St) : St :=
  cs.foldl (execCall ag) s

/-- ASCII lower-casing of one character (`String.prototype.toLowerCase`
restricted to the ASCII range, which covers every stop reason compared
here). -/
def lowerChar (c : Char) : Char :=
  if 'A' ≤ c && c ≤ 'Z' then Char.ofNat (c.toNat + 32) else c

/-- JS `toLowerCase`. -/
def jsLower (s : String) : String := ⟨s.data.map lowerChar⟩

/-- The terminal stop reasons, compared case-insensitively
(agent.js:177). -/
def isFinalReason (r : String) : Bool :=
  jsLower r = "final" || jsLower r = "stop" || jsLower r = "completed" ||
  jsLower r = "end" || jsLower r = "done"

/-- One iteration of the run loop (agent.js:89-188), without the provider
call: interpret a step and return the new state plus whether the loop
returns (`true` exactly on a final content decision). -/
def stepIter (ag : Agent) (i : Nat) (step : Step) (s : St) : St × Bool :=
  let toolCalls := (jsOrL step.toolCalls step.tool_calls).getD []
  let stopReason := strOr3 step.stopReason step.stop_reason "continue"
  let content := step.content
  if toolCalls.length > 0 then
    -- A) tool calls
    let s := s.think ("[plan] Model proposed " ++ toString toolCalls.length ++ " tool call(s).")
    let ncalls := normalizeCalls ag i toolCalls
    let s := s.push (.assistant ""
      (ncalls.map (fun c => ⟨c.id, c.name, stringifyCompact c.args⟩)))
    (execCalls ag ncalls s, false)
  else
    match content with
    | some c =>
        if c.length > 0 then
          -- B) natural-language content
          let s := s.think ("[reflect] Model produced content. stopReason=" ++ stopReason)
          let s := s.say "agent" c
          let s := s.push (.assistant c [])
          (s, isFinalReason stopReason)
        else
          -- C) no tool and no content
          let s := s.think "[plan] Model produced no content and no tool. Replanning."
          (s.push (.assistant "No valid next action. Replanning with constraints." []), false)
    | none =>
        let s := s.think "[plan] Model produced no content and no tool. Replanning."
        (s.push (.assistant "No valid next action. Replanning with constraints." []), false)

/-- The stuck-run message emitted when the turn ceiling is reached
(agent.js:190). -/
def stuckMessage : String :=
  "I seem to be stuck in a loop. Please try rephrasing your query."

/-- The loop from turn `i` with `r` turns left: each iteration makes one
provider call; falling off the loop emits the stuck message. -/
def runFrom (ag : Agent) : Nat → Nat → St → St
  | _, 0, s => s.say "agent" stuckMessage
  | i, r + 1, s =>
      let step := ag.llmProvider s.history
      let s := { s with providerCalls := s.providerCalls + 1 }
      match stepIter ag i step s with
      | (s', true) => s'
      | (s', false) => runFrom ag (i + 1) r s'

/-- `Agent.run` (agent.js:85-191): reset the history to the user turn, emit
it, and loop up to `maxTurns` times. -/
def Agent.run (ag : Agent) (userInput : String) : St :=
  runFrom ag 0 ag.maxTurns
    { history := [.user userInput]
      messages := [("user", userInput)]
      thoughts := []
      providerCalls := 0 }

/-! ### Derived definitions used by the verification -/

/-- Repackage a parsed `Decision` as the raw step a provider that calls
`tryParseToolCall` resolves with (as `GeminiProvider.getCompletion`
does). -/
def decisionToStep (d : Decision) : Step :=
  { toolCalls := d.toolCalls.map (List.map (fun pc =>
      { id := some pc.id, name := some pc.name, tool := none,
        args := some pc.args, arguments := none }))
    tool_calls := none
    stopReason := some d.stopReason
    stop_reason := none
    content := d.content }

/-- A step carrying only plain content with `stopReason = "continue"`. -/
def mkContentStep (c : String) : Step :=
  ⟨none, none, some "continue", none, some c⟩

/-- Well-formedness of a decision: either a tool-calls decision (non-empty
call list, `content` null) or a content decision (`toolCalls` null,
`content` a string). -/
def decisionWF (d : Decision) : Prop :=
  (∃ l, d.toolCalls = some l ∧ l ≠ [] ∧ d.content = none) ∨
  (d.toolCalls = none ∧ ∃ s, d.content = some s)

/-- The call ids recorded in an assistant turn. -/
def callIds (tc : List ARec) : List Json := tc.map ARec.id

/-- The ids offered by the nearest assistant turn below the given point of
the (newest-first) history, skipping sibling tool turns. -/
def prevAssistantIds : List Turn → Option (List Json)
  | [] => none
  | .assistant _ tc :: _ => some (callIds tc)
  | .tool _ _ :: r => prevAssistantIds r
  | .user _ :: _ => none

/-- The history invariant of claim C9 on a newest-first history: every tool
turn's `tool_call_id` is among the call ids of the immediately preceding
assistant turn (only sibling tool turns in between), and an assistant turn
carrying tool calls carries the empty content string. -/
def histOK : List Turn → Prop
  | [] => True
  | .tool id _ :: r =>
      (∃ ids, prevAssistantIds r = some ids ∧ id ∈ ids) ∧ histOK r
  | .assistant c tc :: r => (tc ≠ [] → c = "") ∧ histOK r
  | .user _ :: r => histOK r

/-- The `tool_call_id`s of all tool turns, oldest first. -/
def toolTurnIds (h : List Turn) : List Json :=
  h.reverse.filterMap (fun t =>
    match t with
    | .tool id _ => some id
    | _ => none)

/-- Pairwise distinctness of a list of JSON values. -/
def allDistinctJ : List Json → Bool
  | [] => true
  | x :: r => (!r.any (Json.beq x)) && allDistinctJ r

/-- The addresses of a heap. -/
def heapAddrs (h : Heap) : List Nat := h.map Prod.fst

/-- How many distinct heap addresses are not yet in `seen`: the quantity
the serializer's fuel has to dominate. -/
def unseenCount (heap : Heap) (seen : List Nat) : Nat :=
  ((heapAddrs heap).toFinset \ seen.toFinset).card

/-- All-whitespace test. -/
def allWs (l : List Char) : Bool := l.all isJsWs

/-- Drop trailing JS whitespace. -/
def rtrim (l : List Char) : List Char := (l.reverse.dropWhile isJsWs).reverse

/-! Concrete scenario objects for witnesses and counterexamples. -/

/-- Planner text proposing two tool calls that share a name and carry no
ids. -/
def dupPlannerText : String :=
  "\x7b\"tool_calls\":[\x7b\"name\":\"t\"\x7d,\x7b\"name\":\"t\"\x7d]\x7d"

/-- Planner text with a final answer. -/
def finalDoneText : String := "\x7b\"final\":\"done\"\x7d"

/-- An agent whose provider proposes the duplicate-name calls on the first
turn and finishes on the second; no tools are registered. -/
def dupAgent : Agent :=
  { llmProvider := fun h =>
      if h.length ≤ 1 then decisionToStep (tryParseToolCall dupPlannerText)
      else decisionToStep (tryParseToolCall finalDoneText)
    tools := []
    genId := fun i j => "gen-" ++ toString i ++ "-" ++ toString j }

/-- A 3005-character string. -/
def padStr : String := ⟨List.replicate 3005 'x'⟩

/-- A self-referential object carrying a long field before the
self-reference. -/
def padHeap : Heap := [(0, ⟨false, [("pad", .str padStr), ("self", .ref 0)]⟩)]

/-- A minimal self-referential object. -/
def selfHeap : Heap := [(0, ⟨false, [("self", .ref 0)]⟩)]

/-- An agent whose provider always returns the plain content `"ok"` with
stop reason `"continue"`. -/
def c2Agent : Agent :=
  { llmProvider := fun _ => mkContentStep "ok"
    tools := []
    genId := fun _ _ => "g" }

/-- A start state with one user turn, as `run` creates it. -/
def st0 : St :=
  { history := [.user "q"]
    messages := [("user", "q")]
    thoughts := []
    providerCalls := 0 }

/-- A step carrying one named tool call AND non-empty content AND a final
stop reason, exercising the branch priority of the loop. -/
def c10Call : RawCall :=
  { id := some (.str "id1")
    name := some (.str "frobnicate")
    tool := none
    args := none
    arguments := none }

def c10Step : Step :=
  { toolCalls := some [c10Call]
    tool_calls := none
    stopReason := some "final"
    stop_reason := none
    content := some "also some content" }

/-- A normalized call for the unregistered tool name `"frobnicate"`. -/
def frobCall : JsCall := ⟨.str "x1", .str "frobnicate", .obj []⟩

/-- A heap with one object holding a `pad` string field and a `self`
self-reference. -/
def padHeapOf (s : String) : Heap :=
  [(0, ⟨false, [("pad", .str s), ("self", .ref 0)]⟩)]

/-! ## Basic lemmas about the string primitives -/

theorem flatMap_singleton (l : List Char) : (l.flatMap fun d => [d]) = l := by
  induction l with
  | nil => rfl
  | cons c r ih => simp [ih]

theorem jsReplaceChar_self (c : Char) (s : String) :
    jsReplaceChar c ⟨[c]⟩ s = s := by
  unfold jsReplaceChar
  have h : (s.data.flatMap fun d => if d = c then [c] else [d]) = s.data := by
    have : (fun d => if d = c then [c] else [d]) = (fun d : Char => [d]) := by
      funext d
      by_cases hd : d = c <;> simp [hd]
    rw [this, flatMap_singleton]
  rw [h]

/-- The three "escape" replacements of `escAndTrunc` are the identity: the
function only truncates. -/
theorem escAndTrunc_eq (limit : Nat) (s : String) :
    escAndTrunc limit s =
      if s.length > limit then (⟨s.data.take limit⟩ : String) ++ "…" else s := by
  unfold escAndTrunc
  rw [show ("&" : String) = ⟨['&']⟩ from rfl, show ("<" : String) = ⟨['<']⟩ from rfl,
    show (">" : String) = ⟨['>']⟩ from rfl]
  rw [jsReplaceChar_self, jsReplaceChar_self, jsReplaceChar_self]

theorem string_eta (s : String) : (⟨s.data⟩ : String) = s := rfl

theorem jsTrim_data (s : String) : jsTrim s = ⟨rtrim (dropWs s.data)⟩ := rfl

theorem rtrim_nil : rtrim [] = [] := rfl

theorem allWs_cons_false {c : Char} {m : List Char} (h : allWs (c :: m) = false) :
    rtrim (c :: m) = c :: rtrim m := by
  unfold rtrim
  rw [List.reverse_cons, List.dropWhile_append]
  by_cases he : (m.reverse.dropWhile isJsWs).isEmpty
  · rw [if_pos he]
    have hm : m.reverse.dropWhile isJsWs = [] := by simpa using he
    have hall : ∀ x ∈ m, isJsWs x = true := by
      intro x hx
      exact List.dropWhile_eq_nil_iff.mp hm x (List.mem_reverse.mpr hx)
    have hc : isJsWs c = false := by
      rcases Bool.eq_false_or_eq_true (isJsWs c) with h' | h'
      case inr => exact h'
      case inl =>
        exfalso
        have ht : allWs (c :: m) = true := by
          simp only [allWs, List.all_cons, h', Bool.true_and, List.all_eq_true]
          exact hall
        rw [ht] at h
        exact Bool.noConfusion h
    simp [List.dropWhile_cons, hc, rtrim, hm]
  · rw [if_neg he]
    simp [rtrim, List.reverse_append]

theorem rtrim_idem (l : List Char) : rtrim (rtrim l) = rtrim l := by
  unfold rtrim
  rw [List.reverse_reverse, List.dropWhile_idempotent]

theorem dropWs_rtrim_of_head (l : List Char)
    (hl : dropWs l = l) : dropWs (rtrim l) = rtrim l := by
  cases hld : l with
  | nil => simp [hld, rtrim, dropWs]
  | cons c m =>
      rw [hld] at hl
      have hc : isJsWs c = false := by
        by_contra hcc
        have hcc' : isJsWs c = true := by
          rcases Bool.eq_false_or_eq_true (isJsWs c) with h' | h'
          · exact h'
          · exact absurd h' hcc
        unfold dropWs at hl
        rw [List.dropWhile_cons, if_pos hcc'] at hl
        have := congrArg List.length hl
        have hle := (List.dropWhile_sublist (p := isJsWs) (l := m)).length_le
        simp at this
        omega
      by_cases hw : allWs (c :: m)
      · have : rtrim (c :: m) = [] ∨ isJsWs c = true := by
          right
          simp [allWs, List.all_cons] at hw
          exact hw.1
        rcases this with h1 | h1
        · simp [h1, dropWs]
        · rw [h1] at hc; exact absurd hc (by simp)
      · have hw' : allWs (c :: m) = false := by
          rcases Bool.eq_false_or_eq_true (allWs (c :: m)) with h' | h'
          · exact absurd h' hw
          · exact h'
        rw [allWs_cons_false hw']
        unfold dropWs
        rw [List.dropWhile_cons, if_neg (by simp [hc])]

theorem jsTrim_idem (s : String) : jsTrim (jsTrim s) = jsTrim s := by
  rw [jsTrim_data s, jsTrim_data ⟨rtrim (dropWs s.data)⟩]
  show (⟨rtrim (dropWs (rtrim (dropWs s.data)))⟩ : String) = ⟨rtrim (dropWs s.data)⟩
  rw [dropWs_rtrim_of_head _ (by unfold dropWs; rw [List.dropWhile_idempotent]),
    rtrim_idem]

/-! ## Lemmas about substring containment -/

theorem pfxAt_append {p l : List Char} (m : List Char) (h : pfxAt p l = true) :
    pfxAt p (l ++ m) = true := by
  induction p generalizing l with
  | nil => rfl
  | cons a ps ih =>
      cases l with
      | nil => exact absurd h (by simp [pfxAt])
      | cons c r =>
          simp only [pfxAt, Bool.and_eq_true] at h ⊢
          exact ⟨h.1, ih h.2⟩

theorem pfxAt_self (p : List Char) : pfxAt p p = true := by
  induction p with
  | nil => rfl
  | cons a ps ih => simp [pfxAt, ih]

theorem containsL_of_pfx {p l : List Char} (h : pfxAt p l = true) :
    containsL p l = true := by
  cases l with
  | nil =>
      cases p with
      | nil => rfl
      | cons a ps => exact absurd h (by simp [pfxAt])
  | cons c r => simp [containsL, h]

theorem containsL_append_right {p t : List Char} (d : List Char)
    (h : containsL p t = true) : containsL p (d ++ t) = true := by
  induction d with
  | nil => exact h
  | cons c r ih => simp [containsL, ih]

theorem containsL_append_left {p : List Char} (m : List Char) {l : List Char}
    (h : containsL p l = true) : containsL p (l ++ m) = true := by
  induction l with
  | nil =>
      cases p with
      | nil => cases m <;> simp [containsL, pfxAt]
      | cons a ps => exact absurd h (by simp [containsL, pfxAt])
  | cons c r ih =>
      simp only [containsL, Bool.or_eq_true] at h ⊢
      rcases h with h | h
      · exact Or.inl (pfxAt_append m h)
      · exact Or.inr (ih h)

theorem containsL_infix (pre post p : List Char) :
    containsL p (pre ++ p ++ post) = true :=
  containsL_append_left post (containsL_append_right pre (containsL_of_pfx (pfxAt_self p)))

theorem containsL_cons_false {p : List Char} {c : Char} {r : List Char}
    (h : containsL p (c :: r) = false) : containsL p r = false := by
  simp only [containsL, Bool.or_eq_false_iff] at h
  exact h.2

theorem containsL_suffix_false {p s l : List Char} (hs : s <:+ l)
    (h : containsL p l = false) : containsL p s = false := by
  obtain ⟨t, rfl⟩ := hs
  rcases Bool.eq_false_or_eq_true (containsL p s) with h' | h'
  · rw [containsL_append_right t h'] at h
    exact Bool.noConfusion h
  · exact h'

/-! ## Lemmas about the fence regex -/

theorem fenceReplaceFirst_of_no_fence {cs : List Char}
    (h : containsL ['`', '`', '`'] cs = false) : fenceReplaceFirst cs = cs := by
  induction cs with
  | nil => rfl
  | cons c r ih =>
      have hp : pfxAt ['`', '`', '`'] (c :: r) = false := by
        simp only [containsL, Bool.or_eq_false_iff] at h
        exact h.1
      have hm : fenceMatchAt (c :: r) = none := by
        unfold fenceMatchAt pfxBT
        rw [hp]
        rfl
      unfold fenceReplaceFirst
      rw [hm, ih (containsL_cons_false h)]
      rfl

/-- With no fence anywhere, the first step only trims. -/
theorem cleanedText_of_no_fence (text : String)
    (h : containsSub text "```" = false) : cleanedText text = jsTrim text := by
  unfold cleanedText
  rw [fenceReplaceFirst_of_no_fence h, string_eta]

theorem closeFence_of_allWs {m : List Char} (rest : List Char)
    (h : allWs m = true) :
    closeFence (m ++ '`' :: '`' :: '`' :: rest) = some rest := by
  unfold closeFence dropWs
  rw [List.dropWhile_append]
  have hm : m.dropWhile isJsWs = [] := by
    rw [List.dropWhile_eq_nil_iff]
    intro x hx
    exact (List.all_eq_true.mp h) x hx
  rw [hm]
  have hbt : isJsWs '`' = false := by decide
  simp [pfxBT, pfxAt, List.dropWhile, hbt]

theorem closeFence_none {m : List Char} (rest : List Char)
    (hnw : allWs m = false) (hnf : containsL ['`', '`', '`'] m = false) :
    closeFence (m ++ '\n' :: '`' :: '`' :: '`' :: rest) = none := by
  unfold closeFence dropWs
  rw [List.dropWhile_append]
  have hne : (m.dropWhile isJsWs).isEmpty = false := by
    rcases Bool.eq_false_or_eq_true (m.dropWhile isJsWs).isEmpty with h' | h'
    · exfalso
      have hm : m.dropWhile isJsWs = [] := by simpa using h'
      have : allWs m = true := by
        rw [allWs, List.all_eq_true]
        exact List.dropWhile_eq_nil_iff.mp hm
      rw [this] at hnw
      exact Bool.noConfusion hnw
    · exact h'
  rw [hne]
  simp only [Bool.false_eq_true, if_false]
  have hsf : containsL ['`', '`', '`'] (m.dropWhile isJsWs) = false :=
    containsL_suffix_false (List.dropWhile_suffix isJsWs) hnf
  cases hd : m.dropWhile isJsWs with
  | nil => rw [hd] at hne; exact absurd hne (by simp)
  | cons d0 d' =>
      rw [hd] at hsf
      cases d' with
      | nil => simp [pfxBT, pfxAt]
      | cons d1 dmid =>
          cases dmid with
          | nil => simp [pfxBT, pfxAt]
          | cons d2 dtail =>
              have : pfxAt ['`', '`', '`'] (d0 :: d1 :: d2 :: dtail) = false := by
                rcases Bool.eq_false_or_eq_true
                    (pfxAt ['`', '`', '`'] (d0 :: d1 :: d2 :: dtail)) with h' | h'
                · have := containsL_of_pfx h'
                  rw [this] at hsf
                  exact Bool.noConfusion hsf
                · exact h'
              rw [pfxBT]
              rw [show (d0 :: d1 :: d2 :: dtail) ++ '\n' :: '`' :: '`' :: '`' :: rest =
                d0 :: d1 :: d2 :: (dtail ++ '\n' :: '`' :: '`' :: '`' :: rest) from by simp]
              simp only [pfxAt] at this ⊢
              simp only [Bool.and_eq_false_iff, decide_eq_false_iff_not] at this
              simp [this]
              intro h0 h1
              rcases this with h | h
              · exact absurd h0 h
              · rcases h with h | h
                · exact absurd h1 h
                · rcases h with h | h
                  · exact h
                  · exact Bool.noConfusion h

theorem lazyClose_of_closeFence {x : Char} {xs rest : List Char}
    (h : closeFence (x :: xs) = some rest) :
    lazyClose (x :: xs) = some ([], rest) := by
  simp only [lazyClose, lazyCloseStep, h]

theorem lazyClose_of_closeFence_none {x : Char} {xs : List Char}
    (h : closeFence (x :: xs) = none) :
    lazyClose (x :: xs) = (lazyClose xs).map (fun p => (x :: p.1, p.2)) := by
  simp only [lazyClose, lazyCloseStep, h]

/-- The lazy close scan on `mid` followed by a newline and the closing
fence: the captured content is `mid` with its trailing whitespace absorbed
by the regex's `\s*`, and nothing follows the match. -/
theorem lazyClose_mid {mid : List Char}
    (hnf : containsL ['`', '`', '`'] mid = false) :
    lazyClose (mid ++ '\n' :: '`' :: '`' :: '`' :: []) = some (rtrim mid, []) := by
  induction mid with
  | nil =>
      have h : closeFence ('\n' :: '`' :: '`' :: '`' :: []) = some [] :=
        closeFence_of_allWs (m := ['\n']) [] (by decide)
      rw [show (([] : List Char) ++ '\n' :: '`' :: '`' :: '`' :: []) =
        '\n' :: '`' :: '`' :: '`' :: [] from rfl, lazyClose_of_closeFence h]
      rfl
  | cons c m ih =>
      rcases Bool.eq_false_or_eq_true (allWs (c :: m)) with hw | hw
      case inl =>
        have hall : allWs ((c :: m) ++ ['\n']) = true := by
          simp only [allWs, List.all_append] at hw ⊢
          simp [hw]
          decide
        have hcf : closeFence (c :: (m ++ '\n' :: '`' :: '`' :: '`' :: [])) =
            some [] := by
          have := closeFence_of_allWs (m := (c :: m) ++ ['\n']) [] hall
          rw [show ((c :: m) ++ ['\n']) ++ '`' :: '`' :: '`' :: ([] : List Char) =
            c :: (m ++ '\n' :: '`' :: '`' :: '`' :: []) from by simp] at this
          exact this
        have hrt : rtrim (c :: m) = [] := by
          unfold rtrim
          rw [List.dropWhile_eq_nil_iff.mpr]
          · rfl
          · intro x hx
            exact (List.all_eq_true.mp hw) x (List.mem_reverse.mp hx)
        rw [show ((c :: m) ++ '\n' :: '`' :: '`' :: '`' :: []) =
          c :: (m ++ '\n' :: '`' :: '`' :: '`' :: []) from rfl,
          lazyClose_of_closeFence hcf, hrt]
      case inr =>
        have hcf : closeFence (c :: (m ++ '\n' :: '`' :: '`' :: '`' :: [])) =
            none := by
          have := closeFence_none (m := c :: m) [] hw hnf
          rw [show ((c :: m) ++ '\n' :: '`' :: '`' :: '`' :: []) =
            c :: (m ++ '\n' :: '`' :: '`' :: '`' :: []) from rfl] at this
          exact this
        rw [show ((c :: m) ++ '\n' :: '`' :: '`' :: '`' :: []) =
          c :: (m ++ '\n' :: '`' :: '`' :: '`' :: []) from rfl,
          lazyClose_of_closeFence_none hcf, ih (containsL_cons_false hnf),
          allWs_cons_false hw]
        rfl

theorem allWs_of_dropWs_nil {l : List Char} (h : dropWs l = []) :
    ∀ x ∈ l, isJsWs x = true := by
  intro x hx
  exact List.dropWhile_eq_nil_iff.mp h x hx

/-- The fully wrapped case: a fenced block enclosing the whole text is
stripped to its (trimmed) inner content. -/
theorem cleanedText_wrapped (body : String)
    (h : containsSub body "```" = false) :
    cleanedText ("```json\n" ++ body ++ "\n```") = jsTrim body := by
  have hdata : ("```json\n" ++ body ++ "\n```").data =
      '`' :: '`' :: '`' :: 'j' :: 's' :: 'o' :: 'n' :: '\n' ::
        (body.data ++ '\n' :: '`' :: '`' :: '`' :: []) := by
    rw [String.data_append, String.data_append]
    rfl
  have hmatch : fenceMatchAt ('`' :: '`' :: '`' :: 'j' :: 's' :: 'o' :: 'n' :: '\n' ::
      (body.data ++ '\n' :: '`' :: '`' :: '`' :: [])) =
      lazyClose (dropWs (body.data ++ '\n' :: '`' :: '`' :: '`' :: [])) := rfl
  have hbody : containsL ['`', '`', '`'] body.data = false := h
  by_cases hws : dropWs body.data = []
  · -- all-whitespace body: the whole text is one fence around whitespace
    have hdw : dropWs (body.data ++ '\n' :: '`' :: '`' :: '`' :: []) =
        '`' :: '`' :: '`' :: [] := by
      unfold dropWs at hws ⊢
      rw [List.dropWhile_append, hws]
      simp [List.dropWhile]
      decide
    have hlc : lazyClose ('`' :: '`' :: '`' :: []) = some ([], []) := rfl
    unfold cleanedText
    rw [hdata]
    unfold fenceReplaceFirst
    rw [hmatch, hdw, hlc]
    have : jsTrim body = ⟨rtrim (dropWs body.data)⟩ := jsTrim_data body
    rw [this, hws]
    rfl
  · -- body with content: the lazy close lands on the outer closing fence
    have hmid : containsL ['`', '`', '`'] (dropWs body.data) = false :=
      containsL_suffix_false (List.dropWhile_suffix isJsWs) hbody
    have hdw : dropWs (body.data ++ '\n' :: '`' :: '`' :: '`' :: []) =
        dropWs body.data ++ '\n' :: '`' :: '`' :: '`' :: [] := by
      unfold dropWs at hws ⊢
      rw [List.dropWhile_append]
      rw [if_neg (by simpa using hws)]
    have hlc := lazyClose_mid hmid
    unfold cleanedText
    rw [hdata]
    unfold fenceReplaceFirst
    rw [hmatch, hdw, hlc]
    show jsTrim ⟨rtrim (dropWs body.data) ++ []⟩ = jsTrim body
    rw [List.append_nil]
    rw [show (⟨rtrim (dropWs body.data)⟩ : String) = jsTrim body from
      (jsTrim_data body).symm]
    exact jsTrim_idem body

/-- Claim C7 (amended): the first parsing step strips the leftmost fenced
code block wherever it occurs, not only when it encloses the whole input.
When the whole (trimmed) input is a single fenced block the wrapper is
stripped to the trimmed inner content, and an input containing no fence at
all is altered only by trimming — but a fenced block that does not enclose
the whole input is stripped as well (see the counterexample). -/
theorem cleanedText_fence_step :
    (∀ text : String, containsSub text "```" = false →
      cleanedText text = jsTrim text) ∧
    (∀ body : String, containsSub body "```" = false →
      cleanedText ("```json\n" ++ body ++ "\n```") = jsTrim body) :=
  ⟨cleanedText_of_no_fence, cleanedText_wrapped⟩

/-- Witness for the amended claim C7 at concrete inputs. -/
theorem cleanedText_fence_step_witness :
    (containsSub "hi there" "```" = false ∧
      cleanedText "hi there" = jsTrim "hi there") ∧
    (containsSub "x+1" "```" = false ∧
      cleanedText ("```json\n" ++ "x+1" ++ "\n```") = jsTrim "x+1") :=
  ⟨⟨by decide, cleanedText_fence_step.1 "hi there" (by decide)⟩,
   ⟨by decide, cleanedText_fence_step.2 "x+1" (by decide)⟩⟩

/-- Counterexample to claim C7 as stated: a text whose fenced block does
not enclose the whole input is still altered by the first step (the
unanchored regex strips the embedded fence). -/
theorem cleanedText_alters_unwrapped :
    cleanedText "a ```x``` b" = "a x b" ∧
    cleanedText "a ```x``` b" ≠ "a ```x``` b" := by
  constructor
  · decide
  · decide

/-- Claim C5 (evaluation of the code at the failing input): the three
"escape" replacements of `sanitizeObservation` substitute `&`, `<` and `>`
each by itself, so a value containing them is returned verbatim instead of
HTML-escaped — the code contradicts its own comment ("Escape basic HTML to
preserve structure instead of stripping tags"). -/
theorem sanitizeObservation_no_html_escape :
    sanitizeObservation 3000 [] (JVal.str "<b>&") = "<b>&" := by decide

/-! ## Lemmas about dispatch and the run loop -/

theorem execCall_history (ag : Agent) (s : St) (c : JsCall) :
    (execCall ag s c).history = toolTurnOf ag c :: s.history := by
  unfold execCall
  cases ag.registry c.name <;> rfl

theorem execCall_messages (ag : Agent) (s : St) (c : JsCall) :
    (execCall ag s c).messages = s.messages := by
  unfold execCall
  cases ag.registry c.name <;> rfl

theorem execCall_providerCalls (ag : Agent) (s : St) (c : JsCall) :
    (execCall ag s c).providerCalls = s.providerCalls := by
  unfold execCall
  cases ag.registry c.name <;> rfl

theorem execCalls_history (ag : Agent) (cs : List JsCall) :
    ∀ s, (execCalls ag cs s).history =
      (cs.map (toolTurnOf ag)).reverse ++ s.history := by
  induction cs with
  | nil => intro s; rfl
  | cons c r ih =>
      intro s
      show (execCalls ag r (execCall ag s c)).history = _
      rw [ih, execCall_history]
      simp

theorem execCalls_messages (ag : Agent) (cs : List JsCall) :
    ∀ s, (execCalls ag cs s).messages = s.messages := by
  induction cs with
  | nil => intro s; rfl
  | cons c r ih =>
      intro s
      show (execCalls ag r (execCall ag s c)).messages = _
      rw [ih, execCall_messages]

theorem execCalls_providerCalls (ag : Agent) (cs : List JsCall) :
    ∀ s, (execCalls ag cs s).providerCalls = s.providerCalls := by
  induction cs with
  | nil => intro s; rfl
  | cons c r ih =>
      intro s
      show (execCalls ag r (execCall ag s c)).providerCalls = _
      rw [ih, execCall_providerCalls]

theorem stepIter_content (ag : Agent) (i : Nat) (c : String) (s : St)
    (hc : c.length > 0) :
    stepIter ag i (mkContentStep c) s =
      ((((s.think ("[reflect] Model produced content. stopReason=continue")).say
        "agent" c).push (.assistant c [])), false) := by
  unfold stepIter mkContentStep
  simp only [jsOrL, strOr3]
  rw [if_neg (by simp)]
  rw [if_pos hc]
  have hf : isFinalReason "continue" = false := by decide
  simp [hf]

theorem runFrom_content (ag : Agent) (f : List Turn → String)
    (hprov : ag.llmProvider = fun h => mkContentStep (f h))
    (hne : ∀ h, f h ≠ "") :
    ∀ r i s, (runFrom ag i r s).providerCalls = s.providerCalls + r ∧
      (runFrom ag i r s).messages.head? = some ("agent", stuckMessage) := by
  intro r
  induction r with
  | zero =>
      intro i s
      exact ⟨rfl, rfl⟩
  | succ r ih =>
      intro i s
      have hlen : (f s.history).length > 0 := by
        have hno := hne s.history
        rcases Nat.eq_zero_or_pos (f s.history).length with h0 | h0
        · exact absurd (String.ext (by
            have hd : (f s.history).data.length = 0 := h0
            simpa using List.length_eq_zero.mp hd)) hno
        · exact h0
      have hr : runFrom ag i (r + 1) s = runFrom ag (i + 1) r
          ((({ s with providerCalls := s.providerCalls + 1 }.think
            ("[reflect] Model produced content. stopReason=continue")).say
            "agent" (f s.history)).push (.assistant (f s.history) [])) := by
        show (match stepIter ag i (ag.llmProvider s.history)
            { s with providerCalls := s.providerCalls + 1 } with
          | (st, true) => st
          | (st, false) => runFrom ag (i + 1) r st) = _
        rw [hprov]
        rw [stepIter_content ag i (f s.history) _ hlen]
      rw [hr]
      obtain ⟨h1, h2⟩ := ih (i + 1)
        ((({ s with providerCalls := s.providerCalls + 1 }.think
          ("[reflect] Model produced content. stopReason=continue")).say
          "agent" (f s.history)).push (.assistant (f s.history) []))
      refine ⟨?_, h2⟩
      rw [h1]
      show s.providerCalls + 1 + r = s.providerCalls + (r + 1)
      omega

/-- Claim C2: with a provider that on every call resolves to plain
non-empty content with stop reason `"continue"`, `run` makes exactly
`maxTurns` provider calls and then emits the stuck-run message as its last
message; nothing is raised (the run is a total function here). -/
theorem run_content_exhausts_turns (ag : Agent) (f : List Turn → String)
    (hprov : ag.llmProvider = fun h => mkContentStep (f h))
    (hne : ∀ h, f h ≠ "") (input : String) :
    (ag.run input).providerCalls = ag.maxTurns ∧
    (ag.run input).messages.head? = some ("agent", stuckMessage) := by
  unfold Agent.run
  have := runFrom_content ag f hprov hne ag.maxTurns 0
    { history := [.user input]
      messages := [("user", input)]
      thoughts := []
      providerCalls := 0 }
  simpa using this

/-- Witness for claim C2: the constant provider `"ok"`, default turn
ceiling 10. -/
theorem run_content_exhausts_turns_witness :
    (c2Agent.llmProvider = fun h => mkContentStep ((fun _ => "ok") h)) ∧
    (∀ h : List Turn, (fun _ => "ok") h ≠ ("" : String)) ∧
    ((c2Agent.run "hi").providerCalls = c2Agent.maxTurns ∧
      (c2Agent.run "hi").messages.head? = some ("agent", stuckMessage)) :=
  ⟨rfl, fun _ => show ("ok" : String) ≠ "" by decide,
    run_content_exhausts_turns c2Agent (fun _ => "ok") rfl
      (fun _ => show ("ok" : String) ≠ "" by decide) "hi"⟩

theorem stepIter_toolbranch (ag : Agent) (i : Nat) (step : Step) (s : St)
    (hlen : ((jsOrL step.toolCalls step.tool_calls).getD []).length > 0) :
    stepIter ag i step s =
      (execCalls ag
        (normalizeCalls ag i ((jsOrL step.toolCalls step.tool_calls).getD []))
        ((s.think ("[plan] Model proposed " ++
          toString ((jsOrL step.toolCalls step.tool_calls).getD []).length ++
          " tool call(s).")).push (.assistant ""
            ((normalizeCalls ag i ((jsOrL step.toolCalls step.tool_calls).getD [])).map
              (fun c => ⟨c.id, c.name, stringifyCompact c.args⟩)))), false) := by
  unfold stepIter
  rw [if_pos hlen]

/-- Claim C10: a decision carrying at least one named tool call takes the
tool-call branch even when it also carries content: the message callback
receives nothing, the history is extended only by the empty-content
assistant turn and the per-call tool turns (the decision's content string
is never appended), and the iteration returns to planning unconditionally
(`false` = loop continues), independent of the decision's stop reason. -/
theorem stepIter_toolcalls_priority (ag : Agent) (i : Nat) (step : Step) (s : St)
    (hnamed : ∃ c ∈ (jsOrL step.toolCalls step.tool_calls).getD [],
      (jtruthy? (jsOrJ c.name c.tool)).isSome = true) :
    (stepIter ag i step s).2 = false ∧
    (stepIter ag i step s).1.messages = s.messages ∧
    (stepIter ag i step s).1.history =
      ((normalizeCalls ag i ((jsOrL step.toolCalls step.tool_calls).getD [])).map
        (toolTurnOf ag)).reverse ++
        Turn.assistant ""
          ((normalizeCalls ag i ((jsOrL step.toolCalls step.tool_calls).getD [])).map
            (fun c => ⟨c.id, c.name, stringifyCompact c.args⟩)) :: s.history ∧
    (∀ r1 r2 : Option String,
      stepIter ag i { step with stopReason := r1, stop_reason := r2 } s =
        stepIter ag i step s) := by
  obtain ⟨c, hc, -⟩ := hnamed
  have hlen : ((jsOrL step.toolCalls step.tool_calls).getD []).length > 0 :=
    List.length_pos.mpr (List.ne_nil_of_mem hc)
  refine ⟨?_, ?_, ?_, ?_⟩
  · rw [stepIter_toolbranch ag i step s hlen]
  · rw [stepIter_toolbranch ag i step s hlen]
    exact execCalls_messages ag _ _
  · rw [stepIter_toolbranch ag i step s hlen]
    rw [execCalls_history]
    rfl
  · intro r1 r2
    rw [stepIter_toolbranch ag i step s hlen,
      stepIter_toolbranch ag i { step with stopReason := r1, stop_reason := r2 } s hlen]

/-- Witness for claim C10: a step with one named call, non-empty content
and a `"final"` stop reason is still dispatched as tool calls and the loop
plans again. -/
theorem stepIter_toolcalls_priority_witness :
    (∃ c ∈ (jsOrL c10Step.toolCalls c10Step.tool_calls).getD [],
      (jtruthy? (jsOrJ c.name c.tool)).isSome = true) ∧
    (stepIter c2Agent 0 c10Step st0).2 = false ∧
    (stepIter c2Agent 0 c10Step st0).1.messages = st0.messages := by
  have h : ∃ c ∈ (jsOrL c10Step.toolCalls c10Step.tool_calls).getD [],
      (jtruthy? (jsOrJ c.name c.tool)).isSome = true := by
    rw [show (jsOrL c10Step.toolCalls c10Step.tool_calls).getD [] =
      [c10Call] from by rfl]
    exact ⟨_, List.mem_cons_self _ _, by decide⟩
  have := stepIter_toolcalls_priority c2Agent 0 c10Step st0 h
  exact ⟨h, this.1, this.2.1⟩

/-- Claim C8: dispatching a call whose name is absent from the registry
appends exactly one tool turn whose content states the tool is unknown,
emits no message, dispatch proceeds with the remaining calls, and the loop
iteration returns to planning rather than aborting. -/
theorem unknown_tool_dispatch (ag : Agent) (s s0 : St) (c : JsCall)
    (rest : List JsCall) (i : Nat) (step : Step)
    (hreg : ag.registry c.name = none)
    (hstep : ((jsOrL step.toolCalls step.tool_calls).getD []).length > 0) :
    (execCall ag s c).history = Turn.tool c.id ("OBSERVATION[" ++
      jsToString c.name ++ "]: Unknown tool '" ++ jsToString c.name ++
      "'. Please choose a listed tool.") :: s.history ∧
    (execCall ag s c).messages = s.messages ∧
    execCalls ag (c :: rest) s = execCalls ag rest (execCall ag s c) ∧
    (stepIter ag i step s0).2 = false := by
  refine ⟨?_, execCall_messages ag s c, rfl, ?_⟩
  · rw [execCall_history]
    unfold toolTurnOf obsContent
    rw [hreg]
  · rw [stepIter_toolbranch ag i step s0 hstep]

/-- Witness for claim C8: the name `"frobnicate"` against an empty
registry. -/
theorem unknown_tool_dispatch_witness :
    c2Agent.registry frobCall.name = none ∧
    ((jsOrL c10Step.toolCalls c10Step.tool_calls).getD []).length > 0 ∧
    (execCall c2Agent st0 frobCall).history = Turn.tool frobCall.id
      ("OBSERVATION[" ++ jsToString frobCall.name ++ "]: Unknown tool '" ++
        jsToString frobCall.name ++ "'. Please choose a listed tool.") ::
        st0.history ∧
    (stepIter c2Agent 0 c10Step st0).2 = false := by
  have h := unknown_tool_dispatch c2Agent st0 st0 frobCall [] 0 c10Step rfl
    (by decide)
  exact ⟨rfl, by decide, h.1, h.2.2.2⟩

theorem normalizeCall_isSome (ag : Agent) (i idx : Nat) (c : RawCall) :
    (normalizeCall ag i idx c).isSome = (jtruthy? (jsOrJ c.name c.tool)).isSome := by
  unfold normalizeCall
  cases jtruthy? (jsOrJ c.name c.tool) <;> simp

theorem normalizeCallsFrom_length (ag : Agent) (i : Nat) :
    ∀ (rcalls : List RawCall) (idx : Nat),
      (∀ c ∈ rcalls, (jtruthy? (jsOrJ c.name c.tool)).isSome = true) →
      (normalizeCallsFrom ag i idx rcalls).length = rcalls.length := by
  intro rcalls
  induction rcalls with
  | nil => intro idx _; rfl
  | cons c r ih =>
      intro idx h
      unfold normalizeCallsFrom
      cases hn : normalizeCall ag i idx c with
      | some nc =>
          simp [ih (idx + 1) (fun x hx => h x (List.mem_cons_of_mem _ hx))]
      | none =>
          exfalso
          have hs := normalizeCall_isSome ag i idx c
          rw [hn] at hs
          have hh := h c (List.mem_cons_self _ _)
          rw [← hs] at hh
          simp at hh

/-- Claim C4 (amended): a `tool_calls` array whose entries all carry truthy
names is recorded as exactly one tool turn per entry, in the array's input
order — the history block is the reversed (newest-first) map of the
normalized calls, so the j-th tool turn dispatches the j-th call and
carries that call's id — but the ids need not be distinct: the parser uses
the tool name as id for an entry without one, so same-name id-less entries
share an id, and the loop generates a fresh id only for a call reaching it
with no id at all. -/
theorem toolcalls_one_turn_per_entry (ag : Agent) (i : Nat) (step : Step)
    (s : St)
    (hnamed : ∀ c ∈ (jsOrL step.toolCalls step.tool_calls).getD [],
      (jtruthy? (jsOrJ c.name c.tool)).isSome = true)
    (hlen : ((jsOrL step.toolCalls step.tool_calls).getD []).length > 0) :
    (normalizeCalls ag i ((jsOrL step.toolCalls step.tool_calls).getD [])).length =
      ((jsOrL step.toolCalls step.tool_calls).getD []).length ∧
    (stepIter ag i step s).1.history =
      ((normalizeCalls ag i ((jsOrL step.toolCalls step.tool_calls).getD [])).map
        (toolTurnOf ag)).reverse ++
        Turn.assistant ""
          ((normalizeCalls ag i ((jsOrL step.toolCalls step.tool_calls).getD [])).map
            (fun c => ⟨c.id, c.name, stringifyCompact c.args⟩)) :: s.history := by
  constructor
  · exact normalizeCallsFrom_length ag i _ 0 hnamed
  · rw [stepIter_toolbranch ag i step s hlen]
    rw [execCalls_history]
    rfl

/-- Witness for the amended claim C4: the parsed duplicate-name planner
output runs through one loop iteration. -/
theorem toolcalls_one_turn_per_entry_witness :
    (∀ c ∈ (jsOrL (decisionToStep (tryParseToolCall dupPlannerText)).toolCalls
        (decisionToStep (tryParseToolCall dupPlannerText)).tool_calls).getD [],
      (jtruthy? (jsOrJ c.name c.tool)).isSome = true) ∧
    ((jsOrL (decisionToStep (tryParseToolCall dupPlannerText)).toolCalls
        (decisionToStep (tryParseToolCall dupPlannerText)).tool_calls).getD []).length > 0 ∧
    (normalizeCalls c2Agent 0
      ((jsOrL (decisionToStep (tryParseToolCall dupPlannerText)).toolCalls
        (decisionToStep (tryParseToolCall dupPlannerText)).tool_calls).getD [])).length =
      ((jsOrL (decisionToStep (tryParseToolCall dupPlannerText)).toolCalls
        (decisionToStep (tryParseToolCall dupPlannerText)).tool_calls).getD []).length := by
  refine ⟨by decide, by decide, ?_⟩
  exact (toolcalls_one_turn_per_entry c2Agent 0
    (decisionToStep (tryParseToolCall dupPlannerText)) st0 (by decide) (by decide)).1

/-- Counterexample to claim C4 as stated: the two recorded tool turns (one
per entry, in order) both carry the id `"t"` — the shared tool name — so
the recorded ids are not distinct. -/
theorem dup_name_ids_not_distinct :
    Json.beqL (toolTurnIds ((dupAgent.run "q").history))
      [.str "t", .str "t"] = true ∧
    allDistinctJ (toolTurnIds ((dupAgent.run "q").history)) = false := by
  constructor
  · rfl
  · rfl

/-! ## The history invariant (claim C9) -/

theorem callIds_recs (l : List JsCall) :
    callIds (l.map (fun c => (⟨c.id, c.name, stringifyCompact c.args⟩ : ARec))) =
      l.map JsCall.id := by
  unfold callIds
  rw [List.map_map]
  rfl

theorem histOK_toolstack (ag : Agent) (l : List JsCall) :
    ∀ (sub : List JsCall) (below : List Turn), histOK below →
      prevAssistantIds below = some (l.map JsCall.id) →
      (∀ c ∈ sub, c ∈ l) →
      histOK ((sub.map (toolTurnOf ag)).reverse ++ below) := by
  intro sub
  induction sub with
  | nil => intro below hb _ _; exact hb
  | cons c r ih =>
      intro below hb hprev hsub
      have hmem : c ∈ l := hsub c (List.mem_cons_self _ _)
      have hb' : histOK (toolTurnOf ag c :: below) := by
        refine ⟨⟨l.map JsCall.id, hprev, ?_⟩, hb⟩
        exact List.mem_map_of_mem JsCall.id hmem
      have hprev' : prevAssistantIds (toolTurnOf ag c :: below) =
          some (l.map JsCall.id) := by
        unfold toolTurnOf prevAssistantIds
        exact hprev
      have := ih (toolTurnOf ag c :: below) hb' hprev'
        (fun x hx => hsub x (List.mem_cons_of_mem _ hx))
      rw [show ((c :: r).map (toolTurnOf ag)).reverse ++ below =
        (r.map (toolTurnOf ag)).reverse ++ (toolTurnOf ag c :: below) from by simp]
      exact this

theorem stepIter_histOK (ag : Agent) (i : Nat) (step : Step) (s : St)
    (h : histOK s.history) : histOK (stepIter ag i step s).1.history := by
  by_cases hlen : ((jsOrL step.toolCalls step.tool_calls).getD []).length > 0
  · rw [stepIter_toolbranch ag i step s hlen]
    show histOK (execCalls ag _ _).history
    rw [execCalls_history]
    refine histOK_toolstack ag
      (normalizeCalls ag i ((jsOrL step.toolCalls step.tool_calls).getD [])) _ _ ?_ ?_ ?_
    · exact ⟨fun _ => rfl, h⟩
    · show some (callIds _) = _
      rw [callIds_recs]
    · exact fun c hc => hc
  · unfold stepIter
    rw [if_neg hlen]
    split
    · split
      · exact ⟨fun hne => absurd rfl hne, h⟩
      · exact ⟨fun hne => absurd rfl hne, h⟩
    · exact ⟨fun hne => absurd rfl hne, h⟩

theorem runFrom_histOK (ag : Agent) :
    ∀ (r : Nat) (i : Nat) (s : St), histOK s.history →
      histOK (runFrom ag i r s).history := by
  intro r
  induction r with
  | zero => intro i s h; exact h
  | succ r ih =>
      intro i s h
      show histOK (match stepIter ag i (ag.llmProvider s.history)
          { s with providerCalls := s.providerCalls + 1 } with
        | (st, true) => st
        | (st, false) => runFrom ag (i + 1) r st).history
      have hst := stepIter_histOK ag i (ag.llmProvider s.history)
        { s with providerCalls := s.providerCalls + 1 } h
      rcases hmm : stepIter ag i (ag.llmProvider s.history)
          { s with providerCalls := s.providerCalls + 1 } with ⟨st, b⟩
      rw [hmm] at hst
      cases b
      · exact ih (i + 1) st hst
      · exact hst

/-- Claim C9: every history `run` produces satisfies the turn-shape
invariant: each tool turn's `tool_call_id` is among the call ids of the
immediately preceding assistant turn (with only sibling tool turns in
between), and an assistant turn carrying tool calls always carries a
content string — the empty string — so the turn shape stays uniform (in
this embedding an assistant turn carries a `String` content by
construction). -/
theorem run_histOK (ag : Agent) (input : String) :
    histOK ((ag.run input).history) := by
  unfold Agent.run
  apply runFrom_histOK
  exact trivial

/-! ## Lemmas about the guarded serializer (claim C6) -/

theorem serializeChild_prim (g : Nat) (heap : Heap) (sn : List Nat) (ind : String) :
    serializeChild g heap sn ind .null = (.ok "null", sn) ∧
    serializeChild g heap sn ind .undef = (.undef, sn) ∧
    (∀ b, serializeChild g heap sn ind (.bool b) =
      (.ok (if b then "true" else "false"), sn)) ∧
    (∀ n, serializeChild g heap sn ind (.num n) = (.ok (toString n), sn)) ∧
    (∀ n, serializeChild g heap sn ind (.bigint n) = (.ok (toString n), sn)) ∧
    (∀ s, serializeChild g heap sn ind (.str s) = (.ok (jsonQuote s), sn)) := by
  unfold serializeChild
  exact ⟨rfl, rfl, fun _ => rfl, fun _ => rfl, fun _ => rfl, fun _ => rfl⟩

theorem serializeChild_ref_seen (g : Nat) (heap : Heap) (sn : List Nat)
    (ind : String) (a : Nat) (h : a ∈ sn) :
    serializeChild g heap sn ind (.ref a) = (.ok (jsonQuote "[Circular]"), sn) := by
  simp only [serializeChild]
  rw [if_pos h]

theorem serializeChild_ref_dangling (g : Nat) (heap : Heap) (sn : List Nat)
    (ind : String) (a : Nat) (h : a ∉ sn) (hf : heapFind heap a = none) :
    serializeChild g heap sn ind (.ref a) = (.ok "null", a :: sn) := by
  simp only [serializeChild]
  rw [if_neg h, hf]

theorem serializeChild_ref_node_zero (heap : Heap) (sn : List Nat)
    (ind : String) (a : Nat) (node : JObj) (h : a ∉ sn)
    (hf : heapFind heap a = some node) :
    serializeChild 0 heap sn ind (.ref a) = (.oog, a :: sn) := by
  simp only [serializeChild]
  rw [if_neg h, hf]

theorem serializeChild_ref_node (g : Nat) (heap : Heap) (sn : List Nat)
    (ind : String) (a : Nat) (node : JObj) (h : a ∉ sn)
    (hf : heapFind heap a = some node) :
    serializeChild (g + 1) heap sn ind (.ref a) =
      (if node.isArr then
        match elemsGo (fun sn2 w => serializeChild g heap sn2 (ind ++ "  ") w)
            (a :: sn) (node.fields.map Prod.snd) with
        | (.inl x, s2) => (x, s2)
        | (.inr ps, s2) => (.ok (renderBlock "[" "]" ind ps), s2)
      else
        match membersGo (fun sn2 w => serializeChild g heap sn2 (ind ++ "  ") w)
            (a :: sn) node.fields with
        | (.inl x, s2) => (x, s2)
        | (.inr ps, s2) => (.ok (renderBlock "\x7b" "\x7d" ind ps), s2)) := by
  simp only [serializeChild]
  rw [if_neg h, hf]

theorem consPart_snd (s : String) (rec : (SRes ⊕ List String) × List Nat) :
    (consPart s rec).2 = rec.2 := by
  rcases rec with ⟨res, s2⟩
  cases res <;> rfl

theorem elemsGo_seen_mono (f : List Nat → JVal → SRes × List Nat)
    (hf : ∀ sn v, sn ⊆ (f sn v).2) :
    ∀ (l : List JVal) (sn : List Nat), sn ⊆ (elemsGo f sn l).2 := by
  intro l
  induction l with
  | nil => intro sn; exact fun x hx => hx
  | cons v r ih =>
      intro sn
      unfold elemsGo
      rcases hfr : f sn v with ⟨res, sn1⟩
      have h1 : sn ⊆ sn1 := by
        have := hf sn v
        rw [hfr] at this
        exact this
      cases res with
      | oog => exact h1
      | undef =>
          show sn ⊆ (consPart "null" (elemsGo f sn1 r)).2
          rw [consPart_snd]
          exact h1.trans (ih sn1)
      | ok s =>
          show sn ⊆ (consPart s (elemsGo f sn1 r)).2
          rw [consPart_snd]
          exact h1.trans (ih sn1)

theorem membersGo_seen_mono (f : List Nat → JVal → SRes × List Nat)
    (hf : ∀ sn v, sn ⊆ (f sn v).2) :
    ∀ (l : List (String × JVal)) (sn : List Nat), sn ⊆ (membersGo f sn l).2 := by
  intro l
  induction l with
  | nil => intro sn; exact fun x hx => hx
  | cons kv r ih =>
      intro sn
      rcases kv with ⟨k, v⟩
      unfold membersGo
      rcases hfr : f sn v with ⟨res, sn1⟩
      have h1 : sn ⊆ sn1 := by
        have := hf sn v
        rw [hfr] at this
        exact this
      cases res with
      | oog => exact h1
      | undef => exact h1.trans (ih sn1)
      | ok s =>
          show sn ⊆ (consPart (jsonQuote k ++ ": " ++ s) (membersGo f sn1 r)).2
          rw [consPart_snd]
          exact h1.trans (ih sn1)

theorem serializeChild_seen_mono :
    ∀ (g : Nat) (heap : Heap) (sn : List Nat) (ind : String) (v : JVal),
      sn ⊆ (serializeChild g heap sn ind v).2 := by
  intro g
  induction g with
  | zero =>
      intro heap sn ind v
      cases v with
      | ref a =>
          by_cases h : a ∈ sn
          · rw [serializeChild_ref_seen 0 heap sn ind a h]
            exact fun x hx => hx
          · cases hf : heapFind heap a with
            | none =>
                rw [serializeChild_ref_dangling 0 heap sn ind a h hf]
                exact fun x hx => List.mem_cons_of_mem a hx
            | some node =>
                rw [serializeChild_ref_node_zero heap sn ind a node h hf]
                exact fun x hx => List.mem_cons_of_mem a hx
      | null => exact fun x hx => hx
      | undef => exact fun x hx => hx
      | bool b => exact fun x hx => hx
      | num n => exact fun x hx => hx
      | bigint n => exact fun x hx => hx
      | str s => exact fun x hx => hx
  | succ g ih =>
      intro heap sn ind v
      cases v with
      | ref a =>
          by_cases h : a ∈ sn
          · rw [serializeChild_ref_seen (g + 1) heap sn ind a h]
            exact fun x hx => hx
          · cases hf : heapFind heap a with
            | none =>
                rw [serializeChild_ref_dangling (g + 1) heap sn ind a h hf]
                exact fun x hx => List.mem_cons_of_mem a hx
            | some node =>
                rw [serializeChild_ref_node g heap sn ind a node h hf]
                have hmono : ∀ sn2 w, sn2 ⊆
                    (serializeChild g heap sn2 (ind ++ "  ") w).2 :=
                  fun sn2 w => ih heap sn2 (ind ++ "  ") w
                by_cases harr : node.isArr
                · rw [if_pos harr]
                  have := elemsGo_seen_mono _ hmono (node.fields.map Prod.snd) (a :: sn)
                  rcases hrec : elemsGo (fun sn2 w =>
                      serializeChild g heap sn2 (ind ++ "  ") w) (a :: sn)
                      (node.fields.map Prod.snd) with ⟨res, s2⟩
                  rw [hrec] at this
                  have hstep : sn ⊆ a :: sn := fun x hx => List.mem_cons_of_mem a hx
                  have hsub : sn ⊆ s2 := hstep.trans this
                  cases res <;> exact hsub
                · rw [if_neg harr]
                  have := membersGo_seen_mono _ hmono node.fields (a :: sn)
                  rcases hrec : membersGo (fun sn2 w =>
                      serializeChild g heap sn2 (ind ++ "  ") w) (a :: sn)
                      node.fields with ⟨res, s2⟩
                  rw [hrec] at this
                  have hstep : sn ⊆ a :: sn := fun x hx => List.mem_cons_of_mem a hx
                  have hsub : sn ⊆ s2 := hstep.trans this
                  cases res <;> exact hsub
      | null => exact fun x hx => hx
      | undef => exact fun x hx => hx
      | bool b => exact fun x hx => hx
      | num n => exact fun x hx => hx
      | bigint n => exact fun x hx => hx
      | str s => exact fun x hx => hx

theorem heapFind_mem {heap : Heap} {a : Nat} {node : JObj}
    (h : heapFind heap a = some node) : a ∈ heapAddrs heap := by
  unfold heapFind at h
  rcases Option.map_eq_some'.mp h with ⟨p, hp, _⟩
  have hmem := List.mem_of_find?_eq_some hp
  have hpred := List.find?_some hp
  have : p.1 = a := by simpa using hpred
  rw [← this]
  exact List.mem_map_of_mem Prod.fst hmem

theorem list_toFinset_subset {sn sn' : List Nat} (h : sn ⊆ sn') :
    sn.toFinset ⊆ sn'.toFinset := by
  intro x hx
  rw [List.mem_toFinset] at hx ⊢
  exact h hx

theorem unseenCount_mono (heap : Heap) {sn sn' : List Nat} (h : sn ⊆ sn') :
    unseenCount heap sn' ≤ unseenCount heap sn := by
  unfold unseenCount
  exact Finset.card_le_card
    (Finset.sdiff_subset_sdiff (le_refl _) (list_toFinset_subset h))

theorem unseenCount_cons_lt (heap : Heap) {a : Nat} {sn : List Nat}
    (ha : a ∈ heapAddrs heap) (hns : a ∉ sn) :
    unseenCount heap (a :: sn) < unseenCount heap sn := by
  unfold unseenCount
  rw [List.toFinset_cons, Finset.sdiff_insert]
  have hmem : a ∈ (heapAddrs heap).toFinset \ sn.toFinset := by
    rw [Finset.mem_sdiff, List.mem_toFinset, List.mem_toFinset]
    exact ⟨ha, hns⟩
  rw [Finset.card_erase_of_mem hmem]
  have hpos : 0 < ((heapAddrs heap).toFinset \ sn.toFinset).card :=
    Finset.card_pos.mpr ⟨a, hmem⟩
  omega

theorem unseenCount_nil_le (heap : Heap) :
    unseenCount heap [] ≤ heap.length := by
  unfold unseenCount
  have h1 : ((heapAddrs heap).toFinset \ ([] : List Nat).toFinset).card =
      (heapAddrs heap).toFinset.card := by
    simp
  rw [h1]
  calc (heapAddrs heap).toFinset.card ≤ (heapAddrs heap).length :=
        (heapAddrs heap).toFinset_card_le
    _ = heap.length := by unfold heapAddrs; rw [List.length_map]

theorem consPart_inl {s : String} {rec : (SRes ⊕ List String) × List Nat}
    {x : SRes} : (consPart s rec).1 = .inl x ↔ rec.1 = .inl x := by
  rcases rec with ⟨res, s2⟩
  cases res <;> simp [consPart]

theorem elemsGo_inl (f : List Nat → JVal → SRes × List Nat) :
    ∀ (l : List JVal) (sn : List Nat) (x : SRes),
      (elemsGo f sn l).1 = Sum.inl x → x = SRes.oog := by
  intro l
  induction l with
  | nil => intro sn x h; exact absurd h (by simp [elemsGo])
  | cons v r ih =>
      intro sn x h
      unfold elemsGo at h
      rcases hfr : f sn v with ⟨res, sn1⟩
      rw [hfr] at h
      cases res with
      | oog => simpa using h.symm
      | undef => exact ih sn1 x (consPart_inl.mp h)
      | ok s => exact ih sn1 x (consPart_inl.mp h)

theorem membersGo_inl (f : List Nat → JVal → SRes × List Nat) :
    ∀ (l : List (String × JVal)) (sn : List Nat) (x : SRes),
      (membersGo f sn l).1 = Sum.inl x → x = SRes.oog := by
  intro l
  induction l with
  | nil => intro sn x h; exact absurd h (by simp [membersGo])
  | cons kv r ih =>
      intro sn x h
      rcases kv with ⟨k, v⟩
      unfold membersGo at h
      rcases hfr : f sn v with ⟨res, sn1⟩
      rw [hfr] at h
      cases res with
      | oog => simpa using h.symm
      | undef => exact ih sn1 x h
      | ok s => exact ih sn1 x (consPart_inl.mp h)

theorem elemsGo_no_oog (f : List Nat → JVal → SRes × List Nat)
    (P : List Nat → Prop)
    (hmono : ∀ sn v, sn ⊆ (f sn v).2)
    (hP : ∀ {sn sn' : List Nat}, sn ⊆ sn' → P sn → P sn')
    (hf : ∀ sn v, P sn → (f sn v).1 ≠ SRes.oog) :
    ∀ (l : List JVal) (sn : List Nat), P sn →
      (elemsGo f sn l).1 ≠ Sum.inl SRes.oog := by
  intro l
  induction l with
  | nil => intro sn _; simp [elemsGo]
  | cons v r ih =>
      intro sn hp
      unfold elemsGo
      rcases hfr : f sn v with ⟨res, sn1⟩
      have hsn1 : P sn1 := by
        have := hmono sn v
        rw [hfr] at this
        exact hP this hp
      cases res with
      | oog =>
          exfalso
          have := hf sn v hp
          rw [hfr] at this
          exact this rfl
      | undef =>
          intro hcontra
          exact ih sn1 hsn1 (consPart_inl.mp hcontra)
      | ok s =>
          intro hcontra
          exact ih sn1 hsn1 (consPart_inl.mp hcontra)

theorem membersGo_no_oog (f : List Nat → JVal → SRes × List Nat)
    (P : List Nat → Prop)
    (hmono : ∀ sn v, sn ⊆ (f sn v).2)
    (hP : ∀ {sn sn' : List Nat}, sn ⊆ sn' → P sn → P sn')
    (hf : ∀ sn v, P sn → (f sn v).1 ≠ SRes.oog) :
    ∀ (l : List (String × JVal)) (sn : List Nat), P sn →
      (membersGo f sn l).1 ≠ Sum.inl SRes.oog := by
  intro l
  induction l with
  | nil => intro sn _; simp [membersGo]
  | cons kv r ih =>
      intro sn hp
      rcases kv with ⟨k, v⟩
      unfold membersGo
      rcases hfr : f sn v with ⟨res, sn1⟩
      have hsn1 : P sn1 := by
        have := hmono sn v
        rw [hfr] at this
        exact hP this hp
      cases res with
      | oog =>
          exfalso
          have := hf sn v hp
          rw [hfr] at this
          exact this rfl
      | undef => exact ih sn1 hsn1
      | ok s =>
          intro hcontra
          exact ih sn1 hsn1 (consPart_inl.mp hcontra)

/-- The fuel of the guarded serializer never runs out once it dominates the
number of unseen heap addresses: the serializer terminates on every value,
cyclic object graphs included. -/
theorem serializeChild_no_oog :
    ∀ (g : Nat) (heap : Heap) (sn : List Nat) (ind : String) (v : JVal),
      unseenCount heap sn ≤ g → (serializeChild g heap sn ind v).1 ≠ SRes.oog := by
  intro g
  induction g with
  | zero =>
      intro heap sn ind v hcount
      cases v with
      | ref a =>
          by_cases h : a ∈ sn
          · rw [serializeChild_ref_seen 0 heap sn ind a h]
            simp
          · cases hf : heapFind heap a with
            | none =>
                rw [serializeChild_ref_dangling 0 heap sn ind a h hf]
                simp
            | some node =>
                exfalso
                have hlt := unseenCount_cons_lt heap (heapFind_mem hf) h
                omega
      | null => rw [(serializeChild_prim 0 heap sn ind).1]; simp
      | undef => rw [(serializeChild_prim 0 heap sn ind).2.1]; simp
      | bool b => rw [(serializeChild_prim 0 heap sn ind).2.2.1 b]; simp
      | num n => rw [(serializeChild_prim 0 heap sn ind).2.2.2.1 n]; simp
      | bigint n => rw [(serializeChild_prim 0 heap sn ind).2.2.2.2.1 n]; simp
      | str s => rw [(serializeChild_prim 0 heap sn ind).2.2.2.2.2 s]; simp
  | succ g ih =>
      intro heap sn ind v hcount
      cases v with
      | ref a =>
          by_cases h : a ∈ sn
          · rw [serializeChild_ref_seen (g + 1) heap sn ind a h]
            simp
          · cases hf : heapFind heap a with
            | none =>
                rw [serializeChild_ref_dangling (g + 1) heap sn ind a h hf]
                simp
            | some node =>
                rw [serializeChild_ref_node g heap sn ind a node h hf]
                have hlt := unseenCount_cons_lt heap (heapFind_mem hf) h
                have hP1 : unseenCount heap (a :: sn) ≤ g := by omega
                have hmono : ∀ sn2 w, sn2 ⊆
                    (serializeChild g heap sn2 (ind ++ "  ") w).2 :=
                  fun sn2 w => serializeChild_seen_mono g heap sn2 (ind ++ "  ") w
                have hPmono : ∀ {sn2 sn3 : List Nat}, sn2 ⊆ sn3 →
                    unseenCount heap sn2 ≤ g → unseenCount heap sn3 ≤ g :=
                  fun hsub hle => le_trans (unseenCount_mono heap hsub) hle
                have hfno : ∀ sn2 w, unseenCount heap sn2 ≤ g →
                    (serializeChild g heap sn2 (ind ++ "  ") w).1 ≠ SRes.oog :=
                  fun sn2 w h2 => ih heap sn2 (ind ++ "  ") w h2
                by_cases harr : node.isArr
                · rw [if_pos harr]
                  have hno := elemsGo_no_oog _ _ hmono hPmono hfno
                    (node.fields.map Prod.snd) (a :: sn) hP1
                  rcases hrec : elemsGo (fun sn2 w =>
                      serializeChild g heap sn2 (ind ++ "  ") w) (a :: sn)
                      (node.fields.map Prod.snd) with ⟨res, s2⟩
                  rw [hrec] at hno
                  cases res with
                  | inl x =>
                      have hx := elemsGo_inl _ (node.fields.map Prod.snd)
                        (a :: sn) x (by rw [hrec])
                      subst hx
                      exact absurd rfl hno
                  | inr ps => simp
                · rw [if_neg harr]
                  have hno := membersGo_no_oog _ _ hmono hPmono hfno
                    node.fields (a :: sn) hP1
                  rcases hrec : membersGo (fun sn2 w =>
                      serializeChild g heap sn2 (ind ++ "  ") w) (a :: sn)
                      node.fields with ⟨res, s2⟩
                  rw [hrec] at hno
                  cases res with
                  | inl x =>
                      have hx := membersGo_inl _ node.fields
                        (a :: sn) x (by rw [hrec])
                      subst hx
                      exact absurd rfl hno
                  | inr ps => simp
      | null => rw [(serializeChild_prim _ heap sn ind).1]; simp
      | undef => rw [(serializeChild_prim _ heap sn ind).2.1]; simp
      | bool b => rw [(serializeChild_prim _ heap sn ind).2.2.1 b]; simp
      | num n => rw [(serializeChild_prim _ heap sn ind).2.2.2.1 n]; simp
      | bigint n => rw [(serializeChild_prim _ heap sn ind).2.2.2.2.1 n]; simp
      | str s => rw [(serializeChild_prim _ heap sn ind).2.2.2.2.2 s]; simp

theorem consPart_inr {e : String} {rec : (SRes ⊕ List String) × List Nat}
    {ps : List String} {s2 : List Nat} (h : consPart e rec = (Sum.inr ps, s2)) :
    ∃ ps', rec = (Sum.inr ps', s2) ∧ ps = e :: ps' := by
  rcases rec with ⟨res, s3⟩
  cases res with
  | inl x => exact absurd h (by simp [consPart])
  | inr ps' =>
      refine ⟨ps', ?_, ?_⟩
      · simp [consPart] at h
        rw [h.2]
      · simp [consPart] at h
        exact h.1.symm

theorem membersGo_marker (f : List Nat → JVal → SRes × List Nat) (a : Nat)
    (hmono : ∀ sn v, sn ⊆ (f sn v).2)
    (hcirc : ∀ sn, a ∈ sn → f sn (.ref a) = (.ok (jsonQuote "[Circular]"), sn)) :
    ∀ (flds : List (String × JVal)) (sn : List Nat) (key : String),
      (key, JVal.ref a) ∈ flds → a ∈ sn →
      ∀ ps s2, membersGo f sn flds = (Sum.inr ps, s2) →
      ∃ part ∈ ps, containsL ("[Circular]".data) part.data = true := by
  intro flds
  induction flds with
  | nil => intro sn key hmem; exact absurd hmem (List.not_mem_nil _)
  | cons kv r ih =>
      intro sn key hmem ha ps s2 hgo
      rcases kv with ⟨k, v⟩
      rcases List.mem_cons.mp hmem with hhd | htl
      · -- the marker member is at the head
        have hk : k = key ∧ v = JVal.ref a :=
          ⟨(congrArg Prod.fst hhd).symm, (congrArg Prod.snd hhd).symm⟩
        unfold membersGo at hgo
        rw [hk.2, hcirc sn ha] at hgo
        obtain ⟨ps', hrec, hps⟩ := consPart_inr hgo
        refine ⟨jsonQuote k ++ ": " ++ jsonQuote "[Circular]", ?_, ?_⟩
        · rw [hps]; exact List.mem_cons_self _ _
        · rw [String.data_append]
          rw [show (jsonQuote "[Circular]").data =
            '"' :: "[Circular]".data ++ ['"'] from rfl]
          apply containsL_append_right
          show containsL "[Circular]".data
            (('"' :: []) ++ "[Circular]".data ++ ['"']) = true
          exact containsL_infix ['"'] ['"'] _
      · -- the marker member is further down
        unfold membersGo at hgo
        rcases hfr : f sn v with ⟨res, sn1⟩
        rw [hfr] at hgo
        have ha1 : a ∈ sn1 := by
          have := hmono sn v
          rw [hfr] at this
          exact this ha
        cases res with
        | oog => exact absurd hgo (by simp)
        | undef => exact ih sn1 key htl ha1 ps s2 hgo
        | ok s =>
            obtain ⟨ps', hrec, hps⟩ := consPart_inr hgo
            obtain ⟨part, hpmem, hpc⟩ := ih sn1 key htl ha1 ps' s2 hrec
            exact ⟨part, by rw [hps]; exact List.mem_cons_of_mem _ hpmem, hpc⟩

theorem str_empty_append (s : String) : "" ++ s = s := by
  apply String.ext
  rw [String.data_append]
  rfl

theorem str_append_empty (s : String) : s ++ "" = s := by
  apply String.ext
  rw [String.data_append]
  exact List.append_nil s.data

theorem joinSep_cons2 (sep p d : String) (t : List String) :
    joinSep sep (p :: d :: t) = p ++ sep ++ joinSep sep (d :: t) := rfl

theorem joinSep_mem_split (sep : String) :
    ∀ (parts : List String) (p : String), p ∈ parts →
      ∃ x y : String, joinSep sep parts = x ++ p ++ y := by
  intro parts
  induction parts with
  | nil => intro p hp; exact absurd hp (List.not_mem_nil _)
  | cons c r ih =>
      intro p hp
      cases r with
      | nil =>
          have : p = c := by simpa using hp
          subst this
          refine ⟨"", "", ?_⟩
          show p = "" ++ p ++ ""
          rw [str_empty_append, str_append_empty]
      | cons d t =>
          rcases List.mem_cons.mp hp with hhd | htl
          · subst hhd
            refine ⟨"", sep ++ joinSep sep (d :: t), ?_⟩
            rw [joinSep_cons2, str_empty_append, String.append_assoc]
          · obtain ⟨x, y, hxy⟩ := ih p htl
            refine ⟨c ++ sep ++ x, y, ?_⟩
            rw [joinSep_cons2, hxy]
            rw [String.append_assoc, String.append_assoc, String.append_assoc,
              String.append_assoc, ← String.append_assoc]

theorem containsSub_of_infix {p m : String} (x y : String)
    (h : containsL m.data p.data = true) : containsSub (x ++ p ++ y) m = true := by
  unfold containsSub
  rw [String.data_append, String.data_append, List.append_assoc]
  exact containsL_append_right x.data (containsL_append_left y.data h)

theorem containsSub_append_right (d : String) {t m : String}
    (h : containsSub t m = true) : containsSub (d ++ t) m = true := by
  unfold containsSub at h ⊢
  rw [String.data_append]
  exact containsL_append_right d.data h

theorem containsSub_append_left (t : String) {d m : String}
    (h : containsSub d m = true) : containsSub (d ++ t) m = true := by
  unfold containsSub at h ⊢
  rw [String.data_append]
  exact containsL_append_left t.data h

theorem renderBlock_marker (bOpen bClose ind : String) {parts : List String}
    {part m : String} (hp : part ∈ parts)
    (h : containsL m.data part.data = true) :
    containsSub (renderBlock bOpen bClose ind parts) m = true := by
  obtain ⟨x, y, hxy⟩ := joinSep_mem_split (",\n" ++ ind ++ "  ") parts part hp
  cases parts with
  | nil => exact absurd hp (List.not_mem_nil _)
  | cons c r =>
      show containsSub (bOpen ++ "\n" ++ ind ++ "  " ++
        joinSep (",\n" ++ ind ++ "  ") (c :: r) ++ "\n" ++ ind ++ bClose) m = true
      rw [hxy]
      apply containsSub_append_left
      apply containsSub_append_left
      apply containsSub_append_left
      rw [show bOpen ++ "\n" ++ ind ++ "  " ++ (x ++ part ++ y) =
        (bOpen ++ "\n" ++ ind ++ "  " ++ x) ++ part ++ y from by
          simp [String.append_assoc]]
      exact containsSub_of_infix _ _ h

theorem sanitizeObservation_ref_eq (limit : Nat) (heap : Heap) (a : Nat) :
    sanitizeObservation limit heap (.ref a) =
      (match topSerialize heap (.ref a) with
       | .ok json => escAndTrunc limit json
       | .undef => escAndTrunc limit ""
       | .oog => escAndTrunc limit (jvToString (.ref a))) := rfl

/-- Claim C6 (amended): the sanitizer is total — the guarded serialization
never exhausts its fuel, on any value, cyclic object graphs included — and
for every object carrying a direct self-reference the serialized JSON
contains the marker `"[Circular]"`; the *returned* string contains the
marker whenever the serialization was not truncated, but the truncation
step can cut the marker off (see the counterexample). -/
theorem sanitize_total_and_circular_marker :
    (∀ (g : Nat) (heap : Heap) (sn : List Nat) (ind : String) (v : JVal),
      unseenCount heap sn ≤ g → (serializeChild g heap sn ind v).1 ≠ SRes.oog) ∧
    (∀ (heap : Heap) (v : JVal), topSerialize heap v ≠ SRes.oog) ∧
    (∀ (heap : Heap) (a : Nat) (flds : List (String × JVal)) (key : String)
      (limit : Nat),
      heapFind heap a = some ⟨false, flds⟩ → (key, JVal.ref a) ∈ flds →
      ∃ json, topSerialize heap (.ref a) = SRes.ok json ∧
        containsSub json "[Circular]" = true ∧
        (json.length ≤ limit →
          containsSub (sanitizeObservation limit heap (.ref a)) "[Circular]" = true)) := by
  refine ⟨serializeChild_no_oog, ?_, ?_⟩
  · intro heap v
    exact serializeChild_no_oog (heap.length + 1) heap [] "" v
      (le_trans (unseenCount_nil_le heap) (Nat.le_succ _))
  · intro heap a flds key limit hf hmem
    have hnotin : a ∉ ([] : List Nat) := List.not_mem_nil a
    have hnode := serializeChild_ref_node heap.length heap [] "" a
      ⟨false, flds⟩ hnotin hf
    rw [if_neg (by simp)] at hnode
    have hmono : ∀ sn2 w, sn2 ⊆
        (serializeChild heap.length heap sn2 ("" ++ "  ") w).2 :=
      fun sn2 w => serializeChild_seen_mono heap.length heap sn2 ("" ++ "  ") w
    have hsub : ([] : List Nat) ⊆ [a] := fun x hx => absurd hx (List.not_mem_nil x)
    have hPa : unseenCount heap [a] ≤ heap.length :=
      le_trans (unseenCount_mono heap hsub) (unseenCount_nil_le heap)
    have hPmono : ∀ {sn2 sn3 : List Nat}, sn2 ⊆ sn3 →
        unseenCount heap sn2 ≤ heap.length →
        unseenCount heap sn3 ≤ heap.length :=
      fun hsub2 hle => le_trans (unseenCount_mono heap hsub2) hle
    have hfno : ∀ sn2 w, unseenCount heap sn2 ≤ heap.length →
        (serializeChild heap.length heap sn2 ("" ++ "  ") w).1 ≠ SRes.oog :=
      fun sn2 w h2 => serializeChild_no_oog heap.length heap sn2 ("" ++ "  ") w h2
    have hno := membersGo_no_oog _ _ hmono hPmono hfno flds [a] hPa
    rcases hrec : membersGo (fun sn2 w =>
        serializeChild heap.length heap sn2 ("" ++ "  ") w) [a] flds with ⟨res, s2⟩
    rw [hrec] at hno
    cases res with
    | inl x =>
        exfalso
        have hx := membersGo_inl _ flds [a] x (by rw [hrec])
        subst hx
        exact hno rfl
    | inr ps =>
        have hjson : topSerialize heap (.ref a) =
            SRes.ok (renderBlock "\x7b" "\x7d" "" ps) := by
          show (serializeChild (heap.length + 1) heap [] "" (.ref a)).1 = _
          rw [hnode, hrec]
        have hcirc : ∀ sn, a ∈ sn →
            (fun sn2 w => serializeChild heap.length heap sn2 ("" ++ "  ") w) sn
              (.ref a) = (.ok (jsonQuote "[Circular]"), sn) :=
          fun sn hs => serializeChild_ref_seen heap.length heap sn ("" ++ "  ") a hs
        obtain ⟨part, hpmem, hpc⟩ := membersGo_marker _ a hmono hcirc flds [a] key
          hmem (List.mem_cons_self a []) ps s2 hrec
        have hjc : containsSub (renderBlock "\x7b" "\x7d" "" ps) "[Circular]" = true :=
          renderBlock_marker "\x7b" "\x7d" "" hpmem hpc
        refine ⟨renderBlock "\x7b" "\x7d" "" ps, hjson, hjc, ?_⟩
        intro hlen
        rw [sanitizeObservation_ref_eq, hjson]
        show containsSub (escAndTrunc limit (renderBlock "\x7b" "\x7d" "" ps))
          "[Circular]" = true
        rw [escAndTrunc_eq]
        rw [if_neg (by omega)]
        exact hjc

/-- Witness for the amended claim C6: the minimal self-referential object
`selfHeap`. -/
theorem sanitize_total_and_circular_marker_witness :
    (unseenCount selfHeap [] ≤ selfHeap.length + 1 ∧
      (serializeChild (selfHeap.length + 1) selfHeap [] "" (.ref 0)).1 ≠ SRes.oog) ∧
    (heapFind selfHeap 0 = some ⟨false, [("self", JVal.ref 0)]⟩ ∧
      ("self", JVal.ref 0) ∈ [("self", JVal.ref 0)] ∧
      ∃ json, topSerialize selfHeap (.ref 0) = SRes.ok json ∧
        containsSub json "[Circular]" = true ∧
        (json.length ≤ 3000 →
          containsSub (sanitizeObservation 3000 selfHeap (.ref 0)) "[Circular]" = true)) :=
  ⟨⟨by decide,
    sanitize_total_and_circular_marker.1 (selfHeap.length + 1) selfHeap [] "" (.ref 0)
      (by decide)⟩,
   ⟨rfl, List.mem_cons_self _ _,
    sanitize_total_and_circular_marker.2.2 selfHeap 0 [("self", JVal.ref 0)]
      "self" 3000 rfl (List.mem_cons_self _ _)⟩⟩

/-! ## The truncation counterexample for claim C6 -/

theorem flatMap_encChar_x :
    ∀ n, (List.replicate n 'x').flatMap encChar = List.replicate n 'x' := by
  intro n
  induction n with
  | zero => rfl
  | succ n ih =>
      rw [List.replicate_succ, List.flatMap_cons, ih]
      rw [show encChar 'x' = ['x'] from by decide]
      rfl

theorem jsonQuote_pad : jsonQuote padStr = "\"" ++ padStr ++ "\"" := by
  apply String.ext
  show ('"' :: (List.replicate 3005 'x').flatMap encChar) ++ ['"'] =
    (['"'] ++ List.replicate 3005 'x') ++ ['"']
  rw [flatMap_encChar_x]
  rfl

theorem members_padlike (s : String) :
    membersGo (fun sn2 w => serializeChild 1 (padHeapOf s) sn2 ("" ++ "  ") w) [0]
      [("pad", .str s), ("self", .ref 0)] =
      (Sum.inr [jsonQuote "pad" ++ ": " ++ jsonQuote s,
                jsonQuote "self" ++ ": " ++ jsonQuote "[Circular]"], [0]) := by
  unfold membersGo
  rw [(serializeChild_prim 1 (padHeapOf s) [0] ("" ++ "  ")).2.2.2.2.2 s]
  rfl

theorem topSerialize_padlike (s : String) :
    topSerialize (padHeapOf s) (.ref 0) =
      SRes.ok (renderBlock "\x7b" "\x7d" ""
        [jsonQuote "pad" ++ ": " ++ jsonQuote s,
         jsonQuote "self" ++ ": " ++ jsonQuote "[Circular]"]) := by
  show (serializeChild ((padHeapOf s).length + 1) (padHeapOf s) [] "" (.ref 0)).1 = _
  rw [show (padHeapOf s).length + 1 = 1 + 1 from rfl]
  rw [serializeChild_ref_node 1 (padHeapOf s) [] "" 0
    ⟨false, [("pad", .str s), ("self", .ref 0)]⟩ (List.not_mem_nil 0) rfl]
  rw [if_neg (by simp)]
  rw [members_padlike s]

theorem containsL_head_notin {p0 : Char} {ps l : List Char}
    (h : ∀ c ∈ l, c ≠ p0) : containsL (p0 :: ps) l = false := by
  induction l with
  | nil => rfl
  | cons c r ih =>
      have hc : c ≠ p0 := h c (List.mem_cons_self _ _)
      unfold containsL
      rw [ih (fun x hx => h x (List.mem_cons_of_mem _ hx))]
      have hp : pfxAt (p0 :: ps) (c :: r) = false := by
        unfold pfxAt
        rw [Bool.and_eq_false_iff]
        left
        simp
        exact fun he => absurd he.symm hc
      rw [hp]
      rfl

theorem json_split (s : String) :
    renderBlock "\x7b" "\x7d" ""
      [jsonQuote "pad" ++ ": " ++ ("\"" ++ s ++ "\""),
       jsonQuote "self" ++ ": " ++ jsonQuote "[Circular]"] =
      "\x7b\n  \"pad\": \"" ++ s ++ "\",\n  \"self\": \"[Circular]\"\n\x7d" := by
  show ("\x7b" ++ "\n" ++ "" ++ "  " ++
      ((jsonQuote "pad" ++ ": " ++ ("\"" ++ s ++ "\"")) ++ (",\n" ++ "" ++ "  ") ++
        (jsonQuote "self" ++ ": " ++ jsonQuote "[Circular]")) ++
      "\n" ++ "" ++ "\x7d" : String) =
    "\x7b\n  \"pad\": \"" ++ s ++ "\",\n  \"self\": \"[Circular]\"\n\x7d"
  apply String.ext
  simp only [String.data_append, List.append_assoc]
  rfl

theorem json_len (s : String) :
    ("\x7b\n  \"pad\": \"" ++ s ++ "\",\n  \"self\": \"[Circular]\"\n\x7d" : String).length =
      s.length + 39 := by
  rw [String.length_append, String.length_append]
  rw [show ("\x7b\n  \"pad\": \"" : String).length = 12 from rfl]
  rw [show ("\",\n  \"self\": \"[Circular]\"\n\x7d" : String).length = 27 from rfl]
  omega

theorem take3000_split :
    ("\x7b\n  \"pad\": \"" ++ padStr ++ "\",\n  \"self\": \"[Circular]\"\n\x7d" : String).data.take 3000 =
      ['\x7b', '\n', ' ', ' ', '"', 'p', 'a', 'd', '"', ':', ' ', '"'] ++
        List.replicate 2988 'x' := by
  have hd : ("\x7b\n  \"pad\": \"" ++ padStr ++ "\",\n  \"self\": \"[Circular]\"\n\x7d" : String).data =
      ['\x7b', '\n', ' ', ' ', '"', 'p', 'a', 'd', '"', ':', ' ', '"'] ++
        (List.replicate 3005 'x' ++
          ("\",\n  \"self\": \"[Circular]\"\n\x7d" : String).data) := by
    rw [String.data_append, String.data_append, List.append_assoc]
    rfl
  rw [hd, List.take_append_eq_append_take]
  rw [List.take_of_length_le (by decide)]
  rw [show (3000 -
    (['\x7b', '\n', ' ', ' ', '"', 'p', 'a', 'd', '"', ':', ' ', '"'] : List Char).length) =
    2988 from by decide]
  rw [List.take_append_eq_append_take, List.take_replicate]
  rw [show min 2988 3005 = 2988 from by omega]
  rw [List.length_replicate]
  rw [show (2988 - 3005 : Nat) = 0 from by omega]
  rw [List.take_zero, List.append_nil]

/-- Counterexample to claim C6 as stated: with the default 3000-character
truncation limit, a self-referential object whose serialization places more
than 3000 characters before the `"[Circular]"` marker loses the marker to
truncation — the returned string does not contain it. -/
theorem sanitize_truncation_loses_marker :
    containsSub (sanitizeObservation 3000 padHeap (.ref 0)) "[Circular]" = false := by
  have hph : padHeap = padHeapOf padStr := rfl
  rw [hph, sanitizeObservation_ref_eq, topSerialize_padlike padStr]
  show containsSub (escAndTrunc 3000 (renderBlock "\x7b" "\x7d" ""
    [jsonQuote "pad" ++ ": " ++ jsonQuote padStr,
     jsonQuote "self" ++ ": " ++ jsonQuote "[Circular]"])) "[Circular]" = false
  rw [jsonQuote_pad, json_split padStr, escAndTrunc_eq]
  rw [if_pos (show ("\x7b\n  \"pad\": \"" ++ padStr ++
      "\",\n  \"self\": \"[Circular]\"\n\x7d" : String).length > 3000 from by
    rw [json_len padStr]
    rw [show padStr.length = 3005 from by
      show (List.replicate 3005 'x').length = 3005
      rw [List.length_replicate]]
    omega)]
  show containsL ('[' :: ("Circular]" : String).data)
    (("\x7b\n  \"pad\": \"" ++ padStr ++
      "\",\n  \"self\": \"[Circular]\"\n\x7d" : String).data.take 3000 ++ ['…']) = false
  rw [take3000_split]
  apply containsL_head_notin
  intro c hc
  rcases List.mem_append.mp hc with hin | hdots
  · rcases List.mem_append.mp hin with h12 | hrep
    · fin_cases h12 <;> decide
    · rw [List.eq_of_mem_replicate hrep]
      decide
  · have hce : c = '…' := List.mem_singleton.mp hdots
    subst hce
    decide

/-! ## Totality of the decision parser (claim C1) -/

theorem mkContent_WF (s r : String) : decisionWF (Decision.mkContent s r) :=
  Or.inr ⟨rfl, s, rfl⟩

theorem mkCalls_WF (l : List JsCall) (hl : l ≠ []) :
    decisionWF (Decision.mkCalls l) :=
  Or.inl ⟨l, rfl, hl, rfl⟩

theorem strictBranch_WF (cleaned : String) (d : Decision)
    (h : strictBranch cleaned = some d) : decisionWF d := by
  simp only [strictBranch] at h
  split at h
  · exact Option.noConfusion h
  · split at h
    · exact Option.noConfusion h
    · split at h
      · injection h with h
        subst h
        exact mkContent_WF _ _
      · split at h
        · next d0 heq =>
            split at heq
            · split at heq
              · injection heq with heq
                injection h with h
                subst heq
                subst h
                next _ hlen =>
                  exact mkCalls_WF _ (List.length_pos.mp hlen)
              · exact Option.noConfusion heq
            · exact Option.noConfusion heq
        · split at h
          · injection h with h
            subst h
            exact mkCalls_WF _ (by simp)
          · split at h
            · split at h
              · injection h with h
                subst h
                exact mkContent_WF _ _
              · exact Option.noConfusion h
            · exact Option.noConfusion h

/-- Claim C1: `tryParseToolCall` is total — for every input string it
returns a well-formed decision: either a tool-calls decision with a
non-empty call list and null content, or a content decision with null
tool calls (the raw text as content in the fallback case). -/
theorem tryParseToolCall_total (text : String) :
    decisionWF (tryParseToolCall text) := by
  simp only [tryParseToolCall]
  split
  · next d hd => exact strictBranch_WF _ _ hd
  · split
    · exact mkContent_WF _ _
    · split
      · split
        · exact mkContent_WF _ _
        · split
          · exact Or.inl ⟨_, rfl, by simp, rfl⟩
          · split
            · exact mkContent_WF _ _
            · exact mkContent_WF _ _
      · split
        · exact mkContent_WF _ _
        · exact mkContent_WF _ _

/-! ## Round-tripping a final answer through the parser (claim C3) -/

theorem hexVal_hexDigit (n : Nat) (h : n < 16) : hexVal (hexDigit n) = some n := by
  interval_cases n <;> decide

theorem charOfCode_toNat (c : Char) (h : c.toNat < 0xd800) :
    charOfCode c.toNat = c := by
  unfold charOfCode
  rw [dif_pos h]
  rfl

theorem parseStrBody_plain (c : Char) (tail : List Char) (hq : c ≠ '"')
    (hb : c ≠ '\\') (hge : ¬ c.toNat < 32) :
    parseStrBody (c :: tail) = (parseStrBody tail).map (fun p => (c :: p.1, p.2)) := by
  conv_lhs => rw [parseStrBody.eq_def]
  split
  · rename_i heq
    exact List.noConfusion heq
  · rename_i heq
    injection heq with h1 _
    exact absurd h1 hq
  · rename_i heq
    injection heq with h1 _
    exact absurd h1 hb
  · rename_i heq
    injection heq with h1 _
    exact absurd h1 hb
  · rename_i heq
    injection heq with h1 h2
    subst h1
    subst h2
    rw [if_neg hge]

theorem parseStrBody_encChar (c : Char) (tail : List Char) :
    parseStrBody (encChar c ++ tail) =
      (parseStrBody tail).map (fun p => (c :: p.1, p.2)) := by
  by_cases h1 : c = '"'
  · subst h1; rfl
  · by_cases h2 : c = '\\'
    · subst h2; rfl
    · by_cases h3 : c = '\n'
      · subst h3; rfl
      · by_cases h4 : c = '\r'
        · subst h4; rfl
        · by_cases h5 : c = '\t'
          · subst h5; rfl
          · by_cases h6 : c = '\x08'
            · subst h6; rfl
            · by_cases h7 : c = '\x0c'
              · subst h7; rfl
              · by_cases h8 : c.toNat < 32
                · rw [show encChar c = ['\\', 'u', '0', '0',
                    hexDigit (c.toNat / 16), hexDigit (c.toNat % 16)] from by
                      unfold encChar
                      rw [if_neg h1, if_neg h2, if_neg h3, if_neg h4, if_neg h5,
                        if_neg h6, if_neg h7, if_pos h8]]
                  show (match hexVal '0', hexVal '0', hexVal (hexDigit (c.toNat / 16)),
                      hexVal (hexDigit (c.toNat % 16)) with
                    | some a, some b, some x, some d =>
                        (parseStrBody tail).map
                          (fun p => (charOfCode (((a * 16 + b) * 16 + x) * 16 + d) :: p.1, p.2))
                    | _, _, _, _ => none) =
                    (parseStrBody tail).map (fun p => (c :: p.1, p.2))
                  rw [hexVal_hexDigit (c.toNat / 16) (by omega),
                    hexVal_hexDigit (c.toNat % 16) (by omega)]
                  show (parseStrBody tail).map
                      (fun p => (charOfCode (((0 * 16 + 0) * 16 + c.toNat / 16) * 16 +
                        c.toNat % 16) :: p.1, p.2)) =
                    (parseStrBody tail).map (fun p => (c :: p.1, p.2))
                  simp only [show ((0 * 16 + 0) * 16 + c.toNat / 16) * 16 + c.toNat % 16 =
                    c.toNat from by omega, charOfCode_toNat c (by omega)]
                · rw [show encChar c = [c] from by
                      unfold encChar
                      rw [if_neg h1, if_neg h2, if_neg h3, if_neg h4, if_neg h5,
                        if_neg h6, if_neg h7, if_neg h8]]
                  rw [List.singleton_append]
                  exact parseStrBody_plain c tail h1 h2 h8

theorem parseStrBody_enc (X : List Char) (rest : List Char) :
    parseStrBody (X.flatMap encChar ++ '"' :: rest) = some (X, rest) := by
  induction X with
  | nil => rfl
  | cons c X ih =>
      rw [List.flatMap_cons, List.append_assoc, parseStrBody_encChar, ih]
      rfl

theorem parseValue_strE (f : Nat) (X : List Char) (rest : List Char) :
    parseValue (f + 1) ('"' :: (X.flatMap encChar ++ '"' :: rest)) =
      some (.str ⟨X⟩, rest) := by
  show (parseStrBody (X.flatMap encChar ++ '"' :: rest)).map
      (fun p => (Json.str ⟨p.1⟩, p.2)) = some (.str ⟨X⟩, rest)
  rw [parseStrBody_enc]
  rfl

theorem parseObjPairs_final (f : Nat) (X : List Char) :
    parseObjPairs (f + 1 + 1)
      ('"':: 'f':: 'i':: 'n':: 'a':: 'l':: '"':: ':':: '"'::(X.flatMap encChar ++ '"':: '}'::[])) [] =
      some (.obj [("final", .str ⟨X⟩)], []) := by
  show (match parseValue (f + 1) ('"' :: (X.flatMap encChar ++ '"':: '}'::[])) with
    | none => none
    | some (v, r3) =>
        match dropWs r3 with
        | ',' :: r4 => parseObjPairs (f + 1) r4 [("final", v)]
        | '}' :: r4 => some (.obj [("final", v)], r4)
        | _ => none) = some (.obj [("final", .str ⟨X⟩)], [])
  rw [parseValue_strE f X ('}'::[])]
  rfl

theorem parseValue_finalText (f : Nat) (X : List Char) :
    parseValue (f + 4)
      ('{':: '"':: 'f':: 'i':: 'n':: 'a':: 'l':: '"':: ':':: '"'::(X.flatMap encChar ++ '"':: '}'::[])) =
      some (.obj [("final", .str ⟨X⟩)], []) := by
  show parseObjPairs (f + 2)
    ('"':: 'f':: 'i':: 'n':: 'a':: 'l':: '"':: ':':: '"'::(X.flatMap encChar ++ '"':: '}'::[])) [] =
    some (.obj [("final", .str ⟨X⟩)], [])
  exact parseObjPairs_final f X

theorem jsonParse_finalText (X : List Char) :
    jsonParse ⟨'{':: '"':: 'f':: 'i':: 'n':: 'a':: 'l':: '"':: ':':: '"'::(X.flatMap encChar ++ '"':: '}'::[])⟩ =
      some (.obj [("final", .str ⟨X⟩)]) := by
  have hlen : ('{':: '"':: 'f':: 'i':: 'n':: 'a':: 'l':: '"':: ':':: '"'::(X.flatMap encChar ++ '"':: '}'::[])).length
      = (X.flatMap encChar).length + 12 := by
    simp only [List.length_cons, List.length_append, List.length_nil]
  show (match parseValue
      (('{':: '"':: 'f':: 'i':: 'n':: 'a':: 'l':: '"':: ':':: '"'::(X.flatMap encChar ++ '"':: '}'::[])).length + 1)
      ('{':: '"':: 'f':: 'i':: 'n':: 'a':: 'l':: '"':: ':':: '"'::(X.flatMap encChar ++ '"':: '}'::[])) with
    | some (v, rest) => if dropWs rest = [] then some v else none
    | none => none) = some (.obj [("final", .str ⟨X⟩)])
  rw [hlen]
  rw [show (X.flatMap encChar).length + 12 + 1 = ((X.flatMap encChar).length + 9) + 4 from by omega]
  rw [parseValue_finalText ((X.flatMap encChar).length + 9) X]
  rfl

theorem strictBranch_finalText (X : List Char) :
    strictBranch ⟨'{':: '"':: 'f':: 'i':: 'n':: 'a':: 'l':: '"':: ':':: '"'::(X.flatMap encChar ++ '"':: '}'::[])⟩ =
      some (Decision.mkContent ⟨X⟩ "final") := by
  simp only [strictBranch]
  rw [jsonParse_finalText X]
  rfl

theorem containsL_cons_split {pat : List Char} {c : Char} {r : List Char}
    (h : containsL pat (c :: r) = false) :
    pfxAt pat (c :: r) = false ∧ containsL pat r = false := by
  unfold containsL at h
  exact Bool.or_eq_false_iff.mp h

theorem fenceMatchAt_none {cs : List Char} (h : pfxBT cs = false) :
    fenceMatchAt cs = none := by
  unfold fenceMatchAt
  rw [h]
  rfl

theorem fenceReplaceFirst_noop :
    ∀ (cs : List Char), containsL ['`', '`', '`'] cs = false →
      fenceReplaceFirst cs = cs := by
  intro cs
  induction cs with
  | nil => intro _; rfl
  | cons c r ih =>
      intro h
      obtain ⟨h1, h2⟩ := containsL_cons_split h
      show fenceReplaceStep c (fenceMatchAt (c :: r)) (fenceReplaceFirst r) = c :: r
      rw [fenceMatchAt_none h1, ih h2]
      rfl

theorem rtrim_concat (l : List Char) (d : Char) (hd : isJsWs d = false) :
    rtrim (l ++ [d]) = l ++ [d] := by
  unfold rtrim
  rw [List.reverse_append]
  rw [show ([d] : List Char).reverse = [d] from rfl]
  rw [List.singleton_append, List.dropWhile_cons, hd]
  rw [if_neg Bool.false_ne_true]
  rw [List.reverse_cons, List.reverse_reverse]

theorem cleanedText_noop (X : List Char)
    (h : containsL ['`', '`', '`']
      ('{':: '"':: 'f':: 'i':: 'n':: 'a':: 'l':: '"':: ':':: '"'::(X.flatMap encChar ++ '"':: '}'::[])) = false) :
    cleanedText ⟨'{':: '"':: 'f':: 'i':: 'n':: 'a':: 'l':: '"':: ':':: '"'::(X.flatMap encChar ++ '"':: '}'::[])⟩ =
      ⟨'{':: '"':: 'f':: 'i':: 'n':: 'a':: 'l':: '"':: ':':: '"'::(X.flatMap encChar ++ '"':: '}'::[])⟩ := by
  show jsTrim ⟨fenceReplaceFirst
    ('{':: '"':: 'f':: 'i':: 'n':: 'a':: 'l':: '"':: ':':: '"'::(X.flatMap encChar ++ '"':: '}'::[]))⟩ = _
  rw [fenceReplaceFirst_noop _ h]
  rw [jsTrim_data]
  show (⟨rtrim ('{':: '"':: 'f':: 'i':: 'n':: 'a':: 'l':: '"':: ':':: '"'::(X.flatMap encChar ++ '"':: '}'::[]))⟩ : String) = _
  have hsplit : ('{':: '"':: 'f':: 'i':: 'n':: 'a':: 'l':: '"':: ':':: '"'::(X.flatMap encChar ++ '"':: '}'::([] : List Char)))
      = ('{':: '"':: 'f':: 'i':: 'n':: 'a':: 'l':: '"':: ':':: '"'::(X.flatMap encChar ++ ['"'])) ++ ['}'] := by
    simp only [List.cons_append, List.append_assoc]
    rfl
  rw [hsplit, rtrim_concat _ _ (by decide), ← hsplit]

/-- Claim C3 (amended): for every string `X` whose JSON text
`\x7b"final": <X encoded as a JSON string>\x7d` contains no triple-backtick
sequence, `tryParseToolCall` applied to that text returns a content
decision whose content equals `X` and whose stop reason is `"final"` —
including when `X` contains characters that require JSON escaping.  (When
the text does contain three consecutive backticks, the unanchored fence
strip of the first step can rewrite the text before parsing and the
returned content can then differ from `X`, as in the counterexample; with
an unclosed fence — e.g. `X` a lone triple-backtick — the regex finds no
match and the roundtrip still holds, so the hypothesis is sufficient but
not necessary.) -/
theorem parse_final_roundtrip (X : String)
    (h : containsSub ("\x7b\"final\":" ++ jsonQuote X ++ "\x7d") "```" = false) :
    tryParseToolCall ("\x7b\"final\":" ++ jsonQuote X ++ "\x7d") =
      Decision.mkContent X "final" := by
  have hdata : ("\x7b\"final\":" ++ jsonQuote X ++ "\x7d" : String) =
      ⟨'{':: '"':: 'f':: 'i':: 'n':: 'a':: 'l':: '"':: ':':: '"'::(X.data.flatMap encChar ++ '"':: '}'::[])⟩ := by
    apply String.ext
    rw [String.data_append, String.data_append]
    rw [show (jsonQuote X).data = '"' :: (X.data.flatMap encChar ++ ['"']) from
      List.cons_append '"' (X.data.flatMap encChar) ['"']]
    simp only [List.cons_append, List.append_assoc]
    rfl
  rw [hdata] at h ⊢
  have hcl : containsL ['`', '`', '`']
      ('{':: '"':: 'f':: 'i':: 'n':: 'a':: 'l':: '"':: ':':: '"'::(X.data.flatMap encChar ++ '"':: '}'::[])) = false := h
  simp only [tryParseToolCall]
  rw [cleanedText_noop X.data hcl]
  rw [strictBranch_finalText X.data]

/-- Counterexample to claim C3 as stated: for `X` = three backticks, `a`,
three backticks, the JSON text `\x7b"final":"X"\x7d` is first rewritten by
the unanchored fence strip, so the parser returns the content `"a"` rather
than `X`. -/
theorem parse_final_fence_counterexample :
    tryParseToolCall ("\x7b\"final\":\"```a```\"\x7d") = Decision.mkContent "a" "final" ∧
    ¬ tryParseToolCall ("\x7b\"final\":\"```a```\"\x7d") =
        Decision.mkContent "```a```" "final" := by
  have h1 : tryParseToolCall ("\x7b\"final\":\"```a```\"\x7d") =
      Decision.mkContent "a" "final" := rfl
  refine ⟨h1, fun h => ?_⟩
  have h2 := congrArg Decision.content (h1.symm.trans h)
  exact absurd h2 (by decide)

theorem parse_final_roundtrip_witness :
    containsSub ("\x7b\"final\":" ++ jsonQuote "a\"b\nc" ++ "\x7d") "```" = false ∧
    tryParseToolCall ("\x7b\"final\":" ++ jsonQuote "a\"b\nc" ++ "\x7d") =
      Decision.mkContent "a\"b\nc" "final" :=
  ⟨by decide, parse_final_roundtrip "a\"b\nc" (by decide)⟩
